import Mathlib

/-!
# n-pipes: the relay coordinator of `main.c`

A shallow embedding of the coordinator in `src/main.c`:

* the buffer sizing expression of lines 82-83;
* the argument validation of lines 36-58;
* the relay loop of lines 212-334, as a step function over the coordinator's
  state.  The results of `select`, `read`, `write` and `close` come from an
  environment `Env`, indexed by the number of system calls made so far, so a
  run is determined by an arbitrary sequence of results.

Ghost fields (`staged`, `flushed`, `closed`, `log`) record what the loop has
read, delivered, closed and called; the code never reads them.

The array `conns` is a map from index to entry together with `n_children`;
the two computed accesses `conns[i - 1]` and `conns[i + 1]` are checked, and
an access outside `[0, n_children)` is the exit `out_of_bounds`.  A
descriptor set holds the bits `0 .. FD_SETSIZE - 1`; `FD_SET`, `FD_CLR` and
`FD_ISSET` are unchecked in the source, so every use on a handle that is not
below `FD_SETSIZE` is an access outside the set and is the exit
`out_of_bounds` too.  A `write` to a pipe whose reader is gone raises
`SIGPIPE`, for which `main.c` installs no handler: it is the exit
`killed_by_signal`.  The test `i == n_children - 1` is written
`i + 1 = n_children`.
-/

namespace NPipes

/-! ## Buffer sizing (lines 14, 82-83) -/

/-- Line 14: `static const ssize_t MAX_BUF_SZ = 128 * 1024;`. -/
def MAX_BUF_SZ : Nat := 128 * 1024

/-- Lines 82-83: `(size_t) fmin(pow(3, n_children - i + 4), MAX_BUF_SZ - 1)`.
Powers of three up to `3 ^ 33` are exact in a `double`, and the minimum with
`131071` only looks at powers up to `3 ^ 11`, so the value is computed over
the naturals.  The subtraction is the one of the setup loop, where
`i < n_children`. -/
def buf_capacity (n_children i : Nat) : Nat :=
  min (3 ^ (n_children - i + 4)) (MAX_BUF_SZ - 1)

/-! ## Descriptor sets -/

/-- The constant `FD_SETSIZE`: the number of bits of an `fd_set`. -/
def FD_SETSIZE : Nat := 1024

/-- An `fd_set`: the descriptors among `0 .. FD_SETSIZE - 1` whose bit is
set. -/
abbrev fd_set := List Nat

/-- The macro `FD_ZERO`. -/
def FD_ZERO : fd_set := []

/-- The macro `FD_SET(fd, &s)`.  The bit of a handle that is not below
`FD_SETSIZE` lies outside the set: the set is left as it is and the handle is
not monitored (the store itself is the exit `out_of_bounds` where the macro is
used). -/
def FD_SET (fd : Nat) (s : fd_set) : fd_set :=
  if fd < FD_SETSIZE then (if fd ∈ s then s else fd :: s) else s

/-- The macro `FD_CLR(fd, &s)`; it is only used on a handle that `FD_ISSET`
was applied to just before. -/
def FD_CLR (fd : Nat) (s : fd_set) : fd_set := s.filter (fun x => x ≠ fd)

/-- The macro `FD_ISSET(fd, &s)`: the bit of `fd`, which the set has only for
a handle below `FD_SETSIZE`; for another handle the macro reads outside the
set, which is the exit `out_of_bounds` where the macro is used. -/
def FD_ISSET (fd : Nat) (s : fd_set) : Bool := decide (fd < FD_SETSIZE ∧ fd ∈ s)

/-! ## Data model (lines 21-32) and the results of system calls -/

/-- A byte of payload; the relay never inspects it. -/
abbrev Byte := Nat

/-- The `struct conn` of lines 21-32, as the relay loop uses it.  The
worker-side handles `child_rfd` and `child_wfd` are closed in the coordinator
before the loop starts (lines 179, 200-209) and are left out.  `staged` and
`flushed` are ghost fields: every byte read from `rfd` so far, and every byte
accepted by the downstream of this boundary so far. -/
structure conn where
  rfd : Nat
  wfd : Nat
  buf : List Byte
  buf_sz : Nat
  bytes_read : Int
  bytes_written : Int
  needs_flush : Bool
  finished_reading : Bool
  staged : List Byte
  flushed : List Byte

/-- How `main` can leave the relay loop: `return EXIT_SUCCESS`,
`return EXIT_FAILURE`, the `assert` of line 291 failing, an access outside
`conns` or outside a descriptor set, or `SIGPIPE` raised by a `write`. -/
inductive Exit where
  | EXIT_SUCCESS
  | EXIT_FAILURE
  | assert_failed
  | out_of_bounds
  | killed_by_signal
  deriving DecidableEq, Repr

/-- A system call made by the loop, with its result; `sigpipe` is a `write` of
`count` bytes that raised `SIGPIPE` and did not return. -/
inductive Event where
  | select (n_ready : Int)
  | read (i : Nat) (n : Int)
  | close (fd : Nat) (rc : Int)
  | write (i : Nat) (count : Int) (n : Int)
  | write_stdout (count : Int) (n : Int)
  | sigpipe (count : Int)
  deriving DecidableEq, Repr

/-- The coordinator's state in the relay loop: the array `conns` of
`n_children` entries and the monitored sets `rfds`, `wfds`.  `closed` (the
handles passed to `close` by the loop) and `log` (the system calls made,
oldest first) are ghost fields. -/
structure State where
  n_children : Nat
  conns : Nat → conn
  rfds : fd_set
  wfds : fd_set
  closed : List Nat
  log : List Event

/-- What `select` reports: its return value and the descriptors that are
readable and writable. -/
structure SelRes where
  n_ready : Int
  readable : List Nat
  writable : List Nat

/-- What `read` reports: an error, or the bytes it stored. -/
inductive ReadRes where
  | error
  | data (bytes : List Byte)

/-- The return value of `read`. -/
def ReadRes.count : ReadRes → Int
  | .error => -1
  | .data bytes => bytes.length

/-- The bytes `read` stored at the start of the buffer. -/
def ReadRes.bytes : ReadRes → List Byte
  | .error => []
  | .data bytes => bytes

/-- The results of the system calls.  The first argument is the number of
system calls made before this one; `read` and `write` also get the requested
byte count.  `sigpipe t` tells whether the `write` made as call `t` finds the
reader of its pipe gone and raises `SIGPIPE`; otherwise `write t count` is
its return value. -/
structure Env where
  select : Nat → SelRes
  read : Nat → Nat → ReadRes
  write : Nat → Int → Int
  close : Nat → Int
  sigpipe : Nat → Bool

/-- Replace `conns[i]`. -/
def setConn (conns : Nat → conn) (i : Nat) (c : conn) : Nat → conn :=
  fun j => if j = i then c else conns j

/-! ## The relay loop (lines 238-334) -/

/-- Lines 270-282, the body of `if (bytes_read == 0)`: `EXIT_SUCCESS` on the
final boundary; otherwise close `rfd`, set `finished_reading` and stop
monitoring `rfd`. -/
def readEOF (env : Env) (i : Nat) (s : State) : State × Option Exit :=
  if i + 1 = s.n_children then (s, some Exit.EXIT_SUCCESS)
  else
    let c := s.conns i
    let rc := env.close s.log.length
    let s1 : State :=
      { s with log := s.log ++ [Event.close c.rfd rc], closed := c.rfd :: s.closed }
    if rc ≠ 0 then (s1, some Exit.EXIT_FAILURE)
    else
      ({ s1 with
          conns := setConn s1.conns i { c with finished_reading := true }
          rfds := FD_CLR c.rfd s1.rfds }, none)

/-- Lines 283-296: on the final boundary write the bytes to stdout (the
`write` raises `SIGPIPE` or returns) and assert that all were taken; on the
others record `bytes_read`, set `needs_flush` unless `finished_reading`, and
monitor `conns[i + 1].wfd`, which stores outside `wfds` when that handle is
not below `FD_SETSIZE`. -/
def readDeliver (env : Env) (i : Nat) (bytes_read : Int) (s : State) :
    State × Option Exit :=
  let c := s.conns i
  if i + 1 = s.n_children then
    if env.sigpipe s.log.length then
      ({ s with log := s.log ++ [Event.sigpipe bytes_read] }, some Exit.killed_by_signal)
    else
      let bytes_written := env.write s.log.length bytes_read
      let s1 : State :=
        { s with log := s.log ++ [Event.write_stdout bytes_read bytes_written] }
      if bytes_written < 0 then (s1, some Exit.EXIT_FAILURE)
      else
        let s2 : State :=
          { s1 with
              conns := setConn s1.conns i
                { c with
                    flushed :=
                      c.flushed ++ (c.buf.take bytes_read.toNat).take bytes_written.toNat } }
        if bytes_written = bytes_read then (s2, none) else (s2, some Exit.assert_failed)
  else
    if i + 1 < s.n_children then
      ({ s with
          conns := setConn s.conns i
            { c with bytes_read := bytes_read, needs_flush := !c.finished_reading }
          wfds := FD_SET (s.conns (i + 1)).wfd s.wfds },
        if (s.conns (i + 1)).wfd < FD_SETSIZE then none else some Exit.out_of_bounds)
    else (s, some Exit.out_of_bounds)

/-- Lines 263-300: the body of `if (FD_ISSET(rfd, &dirty_rfds))`, after
`--n_ready`.  With `needs_flush` set only `FD_CLR(rfd, &rfds)` runs; otherwise
`read` stores its bytes at the start of `buf`, and lines 270-296 follow. -/
def readBranch (env : Env) (i : Nat) (s : State) : State × Option Exit :=
  let c := s.conns i
  if c.needs_flush then ({ s with rfds := FD_CLR c.rfd s.rfds }, none)
  else
    let r := env.read s.log.length c.buf_sz
    let bytes_read := r.count
    let s1 : State := { s with log := s.log ++ [Event.read i bytes_read] }
    if bytes_read < 0 then (s1, some Exit.EXIT_FAILURE)
    else
      let s2 : State :=
        { s1 with
            conns := setConn s1.conns i
              { c with
                  buf := r.bytes ++ c.buf.drop r.bytes.length
                  staged := c.staged ++ r.bytes } }
      let res := if bytes_read = 0 then readEOF env i s2 else (s2, none)
      match res.2 with
      | some e => (res.1, some e)
      | none => readDeliver env i bytes_read res.1

/-- Lines 306-322: with `conns[i - 1].needs_flush` set, write the slice
`buf[bytes_written .. bytes_read)` of the previous boundary to
`conns[i].wfd` (the `write` raises `SIGPIPE` when the worker is gone, or
returns), add the count to `bytes_written` and, when all is written, reset
`bytes_written`, clear `needs_flush` and monitor `conns[i - 1].rfd` again,
which stores outside `rfds` when that handle is not below `FD_SETSIZE`;
otherwise stop monitoring `wfd`. -/
def flush (env : Env) (i : Nat) (s : State) : State × Option Exit :=
  let p := s.conns (i - 1)
  let wfd := (s.conns i).wfd
  if p.needs_flush then
    let count := p.bytes_read - p.bytes_written
    if env.sigpipe s.log.length then
      ({ s with log := s.log ++ [Event.sigpipe count] }, some Exit.killed_by_signal)
    else
      let bytes_written := env.write s.log.length count
      let s1 : State := { s with log := s.log ++ [Event.write i count bytes_written] }
      if bytes_written < 0 then (s1, some Exit.EXIT_FAILURE)
      else
        let p1 : conn :=
          { p with
              bytes_written := p.bytes_written + bytes_written
              flushed :=
                p.flushed ++
                  ((p.buf.drop p.bytes_written.toNat).take count.toNat).take
                    bytes_written.toNat }
        if p1.bytes_written = p1.bytes_read then
          ({ s1 with
              conns := setConn s1.conns (i - 1)
                { p1 with bytes_written := 0, needs_flush := false }
              rfds := FD_SET p.rfd s1.rfds },
            if p.rfd < FD_SETSIZE then none else some Exit.out_of_bounds)
        else ({ s1 with conns := setConn s1.conns (i - 1) p1 }, none)
  else ({ s with wfds := FD_CLR wfd s.wfds }, none)

/-- Lines 305-331: the body of `if (FD_ISSET(wfd, &dirty_wfds))`, after
`--n_ready`.  `conns[i - 1]` with `i = 0` is outside the array. -/
def writeBranch (env : Env) (i : Nat) (s : State) : State × Option Exit :=
  if i = 0 then (s, some Exit.out_of_bounds)
  else
    let wfd := (s.conns i).wfd
    let res := flush env i s
    match res.2 with
    | some e => (res.1, some e)
    | none =>
      let s1 := res.1
      if (s1.conns (i - 1)).finished_reading then
        let rc := env.close s1.log.length
        let s2 : State :=
          { s1 with log := s1.log ++ [Event.close wfd rc], closed := wfd :: s1.closed }
        if rc ≠ 0 then (s2, some Exit.EXIT_FAILURE)
        else ({ s2 with wfds := FD_CLR wfd s2.wfds }, none)
      else (s1, none)

/-- Where the coordinator is in the loop: about to call `select` (line 244);
at the loop condition of line 255 for index `i`; at line 302 for index `i`;
or out of the loop. -/
inductive PC where
  | select
  | for_read (i : Nat) (n_ready : Int) (dirty_rfds dirty_wfds : fd_set)
  | for_write (i : Nat) (n_ready : Int) (dirty_rfds dirty_wfds : fd_set)
  | exited (e : Exit)
  deriving DecidableEq

/-- A configuration of the relay loop. -/
structure Cfg where
  st : State
  pc : PC

/-- One step of the loop: the `select` call with its checks (lines 239-253),
the loop condition and the readable branch (lines 255-301), or the writable
branch (lines 302-332).  `select` leaves in the copied sets the monitored
descriptors that are ready.  The tests `FD_ISSET(rfd, &dirty_rfds)` of line
260 and `FD_ISSET(wfd, &dirty_wfds)` of line 302 read outside the copied set
when the handle is not below `FD_SETSIZE`. -/
def step (env : Env) (c : Cfg) : Cfg :=
  match c.pc with
  | PC.exited _ => c
  | PC.select =>
    let r := env.select c.st.log.length
    let dirty_rfds := c.st.rfds.filter (fun fd => fd ∈ r.readable)
    let dirty_wfds := c.st.wfds.filter (fun fd => fd ∈ r.writable)
    let st : State := { c.st with log := c.st.log ++ [Event.select r.n_ready] }
    if r.n_ready = -1 then ⟨st, PC.exited Exit.EXIT_FAILURE⟩
    else if r.n_ready = 0 then ⟨st, PC.exited Exit.EXIT_FAILURE⟩
    else ⟨st, PC.for_read 0 r.n_ready dirty_rfds dirty_wfds⟩
  | PC.for_read i n_ready dirty_rfds dirty_wfds =>
    if i < c.st.n_children ∧ n_ready > 0 then
      if (c.st.conns i).rfd < FD_SETSIZE then
        if FD_ISSET (c.st.conns i).rfd dirty_rfds then
          let res := readBranch env i c.st
          match res.2 with
          | some e => ⟨res.1, PC.exited e⟩
          | none => ⟨res.1, PC.for_write i (n_ready - 1) dirty_rfds dirty_wfds⟩
        else ⟨c.st, PC.for_write i n_ready dirty_rfds dirty_wfds⟩
      else ⟨c.st, PC.exited Exit.out_of_bounds⟩
    else ⟨c.st, PC.select⟩
  | PC.for_write i n_ready dirty_rfds dirty_wfds =>
    if (c.st.conns i).wfd < FD_SETSIZE then
      if FD_ISSET (c.st.conns i).wfd dirty_wfds then
        let res := writeBranch env i c.st
        match res.2 with
        | some e => ⟨res.1, PC.exited e⟩
        | none => ⟨res.1, PC.for_read (i + 1) (n_ready - 1) dirty_rfds dirty_wfds⟩
      else ⟨c.st, PC.for_read (i + 1) n_ready dirty_rfds dirty_wfds⟩
    else ⟨c.st, PC.exited Exit.out_of_bounds⟩

/-- The configuration after `n` steps. -/
def run (env : Env) : Nat → Cfg → Cfg
  | 0, c => c
  | n + 1, c => run env n (step env c)

/-! ## The state at the start of the loop (lines 60-100, 212-235) -/

/-- The `conns[i]` left by the setup: `calloc` zeroes the array and the
buffer; lines 74, 80, 82-83 fill in the handles and the capacity. -/
def init_conn (n_children : Nat) (rfd wfd : Nat → Nat) (i : Nat) : conn :=
  { rfd := rfd i
    wfd := wfd i
    buf := List.replicate (buf_capacity n_children i) 0
    buf_sz := buf_capacity n_children i
    bytes_read := 0
    bytes_written := 0
    needs_flush := false
    finished_reading := false
    staged := []
    flushed := [] }

/-- Lines 212-235: the monitored sets before the loop; a handle that is not
below `FD_SETSIZE` is in neither. -/
def init_fds (n_children : Nat) (conns : Nat → conn) : fd_set × fd_set :=
  ((List.range (n_children - 1)).map (fun k => k + 1)).foldl
    (fun acc i => (FD_SET (conns i).rfd acc.1, FD_SET (conns i).wfd acc.2))
    (FD_SET (conns 0).rfd FD_ZERO, FD_ZERO)

/-- The state when the relay loop is entered, for handles `rfd i`, `wfd i`
given by the setup. -/
def init (n_children : Nat) (rfd wfd : Nat → Nat) : State :=
  { n_children := n_children
    conns := init_conn n_children rfd wfd
    rfds := (init_fds n_children (init_conn n_children rfd wfd)).1
    wfds := (init_fds n_children (init_conn n_children rfd wfd)).2
    closed := []
    log := [] }

/-- Lines 222-231 store inside `rfds` and `wfds`: every handle given to
`FD_SET` by the setup is below `FD_SETSIZE`. -/
def init_in_range (n_children : Nat) (conns : Nat → conn) : Bool :=
  decide ((conns 0).rfd < FD_SETSIZE) &&
    ((List.range (n_children - 1)).map (fun k => k + 1)).all
      (fun i => decide ((conns i).rfd < FD_SETSIZE) && decide ((conns i).wfd < FD_SETSIZE))

/-- The configuration the setup leaves: at the first `select`, or out of
bounds when a store of lines 222-231 fell outside its set. -/
def start (n_children : Nat) (rfd wfd : Nat → Nat) : Cfg :=
  ⟨init n_children rfd wfd,
    if init_in_range n_children (init_conn n_children rfd wfd) then PC.select
    else PC.exited Exit.out_of_bounds⟩

/-- The configuration reached `n` steps after the loop is entered with the
handles `rfd i`, `wfd i`. -/
def reached (env : Env) (N : Nat) (rfd wfd : Nat → Nat) (n : Nat) : Cfg :=
  run env n (start N rfd wfd)

/-- The unflushed slice `buf[bytes_written .. bytes_read)` while `needs_flush`
is set, nothing otherwise. -/
def pending (c : conn) : List Byte :=
  if c.needs_flush then
    (c.buf.drop c.bytes_written.toNat).take (c.bytes_read - c.bytes_written).toNat
  else []

/-- The loop was left other than by `return EXIT_SUCCESS`. -/
def PC.aborted : PC → Bool
  | PC.exited Exit.EXIT_SUCCESS => false
  | PC.exited _ => true
  | _ => false

/-- The exit of a configuration that left the loop. -/
def PC.exit? : PC → Option Exit
  | PC.exited e => some e
  | _ => none

/-! ## Argument validation (lines 36-58) -/

/-- The constant `LONG_MAX` of a 64-bit `long`. -/
def LONG_MAX : Int := 2 ^ 63 - 1

/-- The constant `LONG_MIN` of a 64-bit `long`. -/
def LONG_MIN : Int := -(2 ^ 63)

/-- The error number `ERANGE`. -/
def ERANGE : Int := 34

/-- The C library's `isspace` in the "C" locale. -/
def isspace (c : Char) : Bool := c.toNat = 32 || (9 ≤ c.toNat && c.toNat ≤ 13)

/-- The C library's `isdigit`. -/
def isdigit (c : Char) : Bool := 48 ≤ c.toNat && c.toNat ≤ 57

/-- The C library's `strtol(nptr, &end, 10)` as ISO C specifies it, with
`errno` cleared before the call: the value and the resulting `errno`.  Leading
white space and one sign are skipped, the longest run of decimal digits is
converted, and what follows is ignored; without any digit the value is `0` and
`errno` is left alone; a value outside `long` is clamped and `errno` is
`ERANGE`. -/
def strtol (nptr : List Char) : Int × Int :=
  let s := nptr.dropWhile isspace
  let neg := s.head?.map Char.toNat = some 45
  let s := match s with
    | c :: t => if c.toNat = 45 ∨ c.toNat = 43 then t else s
    | [] => []
  let v : Int := (s.takeWhile isdigit).foldl (fun acc c => 10 * acc + ((c.toNat : Int) - 48)) 0
  let v := if neg then -v else v
  if LONG_MAX < v then (LONG_MAX, ERANGE)
  else if v < LONG_MIN then (LONG_MIN, ERANGE)
  else (v, 0)

/-- How far `main` gets with its arguments: it prints the usage text and
returns `EXIT_FAILURE` (lines 39-50), or it reaches the `open` of line 54 with
the stage count it parsed. -/
inductive Startup where
  | usage_error
  | open_file (n_children : Int) (file_name : String)
  deriving DecidableEq, Repr

/-- Lines 36-54 of `main`, for the argument vector `argv` (program name
first). -/
def main_startup (argv : List String) : Startup :=
  match argv.drop 1 with
  | [n, file_name] =>
    if (strtol n.toList).2 ≠ 0 then Startup.usage_error
    else Startup.open_file (strtol n.toList).1 file_name
  | _ => Startup.usage_error

/-! ## Assumptions on the environment and invariants -/

/-- The handles given by the setup are pairwise distinct. -/
structure Distinct (N : Nat) (rfd wfd : Nat → Nat) : Prop where
  rfd_inj : ∀ i j, i < N → j < N → rfd i = rfd j → i = j
  wfd_inj : ∀ i j, i < N → j < N → wfd i = wfd j → i = j
  rfd_ne_wfd : ∀ i j, i < N → j < N → rfd i ≠ wfd j

/-- Every handle of the coordinator is below `FD_SETSIZE`, so every use of
`FD_SET`, `FD_CLR` and `FD_ISSET` stays inside its set. -/
structure InRange (N : Nat) (rfd wfd : Nat → Nat) : Prop where
  rfd_lt : ∀ i, i < N → rfd i < FD_SETSIZE
  wfd_lt : ∀ i, i < N → wfd i < FD_SETSIZE

/-- Every `read` returns at most the requested count and every `write`
returns at most the requested count. -/
structure TransferBounds (env : Env) : Prop where
  read_le : ∀ t n, (env.read t n).count ≤ n
  write_le : ∀ t m, env.write t m ≤ m

/-- The results `select` and `close` can give: `select` returns `-1` or a
count, `close` returns `0` or `-1`. -/
structure Posix (env : Env) : Prop where
  select_ge : ∀ t, -1 ≤ (env.select t).n_ready
  close_rc : ∀ t, env.close t = 0 ∨ env.close t = -1

/-- The relation between the flags and counters of one boundary. -/
structure ConnOK (c : conn) : Prop where
  fin_idle : c.finished_reading = true → c.needs_flush = false
  idle_zero : c.needs_flush = false → c.bytes_written = 0
  flush_lt : c.needs_flush = true → c.bytes_written < c.bytes_read
  written_nonneg : 0 ≤ c.bytes_written
  written_le : c.bytes_written ≤ c.bytes_read
  read_le : c.bytes_read ≤ c.buf_sz
  buf_len : c.buf.length = c.buf_sz

/-- The invariant of the flags and the monitored sets. -/
structure SInv (N : Nat) (rfd wfd : Nat → Nat) (s : State) : Prop where
  n_eq : s.n_children = N
  rfd_eq : ∀ i, (s.conns i).rfd = rfd i
  wfd_eq : ∀ i, (s.conns i).wfd = wfd i
  fin_idle : ∀ i, (s.conns i).finished_reading = true → (s.conns i).needs_flush = false
  last : ∀ i, N ≤ i + 1 →
    (s.conns i).needs_flush = false ∧ (s.conns i).finished_reading = false
  fin_rfds : ∀ i, i < N → (s.conns i).finished_reading = true → rfd i ∉ s.rfds
  idle_rfds : ∀ i, i < N → (s.conns i).needs_flush = false →
    (s.conns i).finished_reading = false → rfd i ∈ s.rfds
  flush_wfds : ∀ i, i + 1 < N → (s.conns i).needs_flush = true → wfd (i + 1) ∈ s.wfds
  fin_wfds : ∀ i, i + 1 < N → (s.conns i).finished_reading = true →
    wfd (i + 1) ∉ s.closed → wfd (i + 1) ∈ s.wfds
  wfds_sub : ∀ x, x ∈ s.wfds → ∃ i, 1 ≤ i ∧ i < N ∧ x = wfd i
  closed_fin : ∀ i, i + 1 < N → wfd (i + 1) ∈ s.closed →
    (s.conns i).finished_reading = true

/-- Every byte read at a boundary has been delivered downstream, except the
unflushed slice of the buffer. -/
def DInv (s : State) : Prop :=
  ∀ j, (s.conns j).flushed ++ pending (s.conns j) = (s.conns j).staged

/-- The result that ends the loop, and how: a negative result of `select`,
`read`, `write` or `close`, or `select` returning `0`, ends it with
`EXIT_FAILURE`; a `read` of `0` bytes on the final boundary ends it with
`EXIT_SUCCESS`; a `write` to stdout that takes fewer bytes than were read
fails the assertion of line 291; a `write` that raises `SIGPIPE` kills the
process. -/
def fatal (n_children : Nat) : Event → Option Exit
  | Event.select n_ready => if n_ready < 0 ∨ n_ready = 0 then some Exit.EXIT_FAILURE else none
  | Event.read i n =>
    if n < 0 then some Exit.EXIT_FAILURE
    else if n = 0 ∧ i + 1 = n_children then some Exit.EXIT_SUCCESS
    else none
  | Event.close _ rc => if rc < 0 then some Exit.EXIT_FAILURE else none
  | Event.write _ _ n => if n < 0 then some Exit.EXIT_FAILURE else none
  | Event.write_stdout count n =>
    if n < 0 then some Exit.EXIT_FAILURE
    else if n ≠ count then some Exit.assert_failed
    else none
  | Event.sigpipe _ => some Exit.killed_by_signal

/-- The trace of a configuration: while in the loop no result so far ends the
loop; out of the loop the last result is the first that ends it, and it gives
the exit. -/
def LogOK (n_children : Nat) (log : List Event) : Option Exit → Prop
  | none => ∀ e ∈ log, fatal n_children e = none
  | some x => ∃ es e, log = es ++ [e] ∧ (∀ e' ∈ es, fatal n_children e' = none) ∧
      fatal n_children e = some x

/-- What holds of the copied sets inside a pass: a boundary still to be
visited that has finished reading is not in `dirty_rfds`, and `conns[0].wfd`
is not in `dirty_wfds`; the loop is never left by an access outside `conns`. -/
def PInv (N : Nat) (rfd wfd : Nat → Nat) (c : Cfg) : Prop :=
  match c.pc with
  | PC.select => True
  | PC.for_read i _ dirty_rfds dirty_wfds =>
    (∀ j, i ≤ j → j < N → (c.st.conns j).finished_reading = true → rfd j ∉ dirty_rfds) ∧
      wfd 0 ∉ dirty_wfds
  | PC.for_write i _ dirty_rfds dirty_wfds =>
    i < N ∧
      (∀ j, i < j → j < N → (c.st.conns j).finished_reading = true → rfd j ∉ dirty_rfds) ∧
      wfd 0 ∉ dirty_wfds
  | PC.exited e => e ≠ Exit.out_of_bounds

/-- The invariant of the flags, the monitored sets and the copied sets. -/
structure Inv (N : Nat) (rfd wfd : Nat → Nat) (c : Cfg) : Prop where
  st : SInv N rfd wfd c.st
  pc : PInv N rfd wfd c

/-! ## Concrete runs -/

/-- The handles of boundary `i` when the descriptors 0-3 are taken and `pipe`
hands out the lowest free ones: `conns[i].rfd`. -/
def rfdA (i : Nat) : Nat := 6 + 4 * i

/-- The handle `conns[i].wfd` under the same allocation. -/
def wfdA (i : Nat) : Nat := 5 + 4 * i

/-- Two stages relaying the three bytes `1, 2, 3`: boundary 0 stages them, the
first flush takes two bytes, the final boundary forwards what the second
worker emits, and both upstreams end. -/
def envRelay : Env :=
  { select := fun t =>
      if t = 0 then ⟨2, [6], [9]⟩
      else if t = 3 then ⟨2, [10], [9]⟩
      else if t = 7 then ⟨2, [6, 10], []⟩
      else if t = 12 then ⟨1, [], [9]⟩
      else ⟨1, [10], []⟩
    read := fun t n =>
      if t = 1 then ReadRes.data ([1, 2, 3].take n)
      else if t = 4 then ReadRes.data ([1, 2].take n)
      else if t = 10 then ReadRes.data ([3].take n)
      else ReadRes.data []
    write := fun t m => if t = 2 then min m 2 else m
    close := fun _ => 0
    sigpipe := fun _ => false }

/-- One stage; the final boundary reads three bytes and the `write` to stdout
takes two of them. -/
def envShortSink : Env :=
  { select := fun _ => ⟨1, [6], []⟩
    read := fun _ n => ReadRes.data ([1, 2, 3].take n)
    write := fun _ m => min m 2
    close := fun _ => 0
    sigpipe := fun _ => false }

/-- Two stages, the second worker having terminated: boundary 0 stages three
bytes and the `write` that flushes them to `conns[1].wfd`, a pipe without a
reader, raises `SIGPIPE`. -/
def envDeadWorker : Env :=
  { select := fun _ => ⟨2, [6], [9]⟩
    read := fun _ n => ReadRes.data ([1, 2, 3].take n)
    write := fun _ m => m
    close := fun _ => 0
    sigpipe := fun _ => true }

/-- Two stages, the second worker having terminated before the first pass:
`select` reports both upstreams readable and `conns[1].wfd` writable,
boundary 0 reads three bytes, and the final boundary reads end of stream. -/
def envEarlyEOF : Env :=
  { select := fun _ => ⟨3, [6, 10], [9]⟩
    read := fun t n => if t = 1 then ReadRes.data ([1, 2, 3].take n) else ReadRes.data []
    write := fun _ m => m
    close := fun _ => 0
    sigpipe := fun _ => false }

/-! ## Lemmas on the descriptor sets and on the two branches of the loop body -/

/-- Membership after `FD_SET`. -/
@[simp] theorem mem_FD_SET {x fd : Nat} {s : fd_set} :
    x ∈ FD_SET fd s ↔ (fd < FD_SETSIZE ∧ x = fd) ∨ x ∈ s := by
  unfold FD_SET
  split
  · next hlt =>
    split
    · constructor
      · intro h; exact Or.inr h
      · rintro (⟨_, h⟩ | h)
        · subst h; assumption
        · exact h
    · simp [hlt]
  · next hlt => simp [hlt]

/-- Membership after `FD_CLR`. -/
@[simp] theorem mem_FD_CLR {x fd : Nat} {s : fd_set} : x ∈ FD_CLR fd s ↔ x ∈ s ∧ x ≠ fd := by
  unfold FD_CLR
  simp

/-- The test `FD_ISSET` is membership, for a handle below `FD_SETSIZE`. -/
@[simp] theorem FD_ISSET_iff {fd : Nat} {s : fd_set} :
    FD_ISSET fd s = true ↔ fd < FD_SETSIZE ∧ fd ∈ s := by
  unfold FD_ISSET
  simp

/-- Reading the entry just replaced. -/
@[simp] theorem setConn_same (conns : Nat → conn) (i : Nat) (c : conn) :
    setConn conns i c i = c := by
  simp [setConn]

/-- Reading any entry after a replacement. -/
theorem setConn_apply (conns : Nat → conn) (i j : Nat) (c : conn) :
    setConn conns i c j = if j = i then c else conns j := rfl

/-- Replacing the same entry twice keeps the second value. -/
@[simp] theorem setConn_setConn (conns : Nat → conn) (i : Nat) (c d : conn) :
    setConn (setConn conns i c) i d = setConn conns i d := by
  funext j
  simp only [setConn_apply]
  split <;> rfl

/-- Replacing an entry by itself changes nothing. -/
@[simp] theorem setConn_self (conns : Nat → conn) (i : Nat) :
    setConn conns i (conns i) = conns := by
  funext j
  simp only [setConn_apply]
  split
  · next h => rw [h]
  · rfl

/-- The return value of a `read` that stored `d`. -/
theorem count_data (d : List Byte) : (ReadRes.data d).count = (d.length : Int) := rfl

/-- The paths through the readable branch for an index inside the array, each
with its final state: a property holds of the result when it holds on every
path. -/
theorem readBranch_cases (env : Env) (i : Nat) (s : State) (hi : i < s.n_children)
    (Q : State × Option Exit → Prop)
    (gated : (s.conns i).needs_flush = true →
      Q ({ s with rfds := FD_CLR (s.conns i).rfd s.rfds }, none))
    (read_error : (s.conns i).needs_flush = false →
      env.read s.log.length (s.conns i).buf_sz = ReadRes.error →
      Q ({ s with log := s.log ++ [Event.read i (-1)] }, some Exit.EXIT_FAILURE))
    (eof_last : (s.conns i).needs_flush = false →
      env.read s.log.length (s.conns i).buf_sz = ReadRes.data [] →
      i + 1 = s.n_children →
      Q ({ s with log := s.log ++ [Event.read i 0] }, some Exit.EXIT_SUCCESS))
    (eof_close_error : (s.conns i).needs_flush = false →
      env.read s.log.length (s.conns i).buf_sz = ReadRes.data [] →
      i + 1 < s.n_children → env.close (s.log.length + 1) ≠ 0 →
      Q ({ s with
            log := s.log ++
              [Event.read i 0, Event.close (s.conns i).rfd (env.close (s.log.length + 1))]
            closed := (s.conns i).rfd :: s.closed }, some Exit.EXIT_FAILURE))
    (eof : (s.conns i).needs_flush = false →
      env.read s.log.length (s.conns i).buf_sz = ReadRes.data [] →
      i + 1 < s.n_children → env.close (s.log.length + 1) = 0 →
      Q ({ s with
            log := s.log ++ [Event.read i 0, Event.close (s.conns i).rfd 0]
            closed := (s.conns i).rfd :: s.closed
            conns := setConn s.conns i
              { s.conns i with
                  finished_reading := true, bytes_read := 0, needs_flush := false }
            rfds := FD_CLR (s.conns i).rfd s.rfds
            wfds := FD_SET (s.conns (i + 1)).wfd s.wfds },
          if (s.conns (i + 1)).wfd < FD_SETSIZE then none else some Exit.out_of_bounds))
    (sink_killed : (s.conns i).needs_flush = false → ∀ d : List Byte, d ≠ [] →
      env.read s.log.length (s.conns i).buf_sz = ReadRes.data d →
      i + 1 = s.n_children → env.sigpipe (s.log.length + 1) = true →
      Q ({ s with
            log := s.log ++ [Event.read i d.length, Event.sigpipe d.length]
            conns := setConn s.conns i
              { s.conns i with
                  buf := d ++ (s.conns i).buf.drop d.length
                  staged := (s.conns i).staged ++ d } }, some Exit.killed_by_signal))
    (sink_error : (s.conns i).needs_flush = false → ∀ d : List Byte, d ≠ [] →
      env.read s.log.length (s.conns i).buf_sz = ReadRes.data d →
      i + 1 = s.n_children → env.sigpipe (s.log.length + 1) = false →
      env.write (s.log.length + 1) d.length < 0 →
      Q ({ s with
            log := s.log ++
              [Event.read i d.length,
               Event.write_stdout d.length (env.write (s.log.length + 1) d.length)]
            conns := setConn s.conns i
              { s.conns i with
                  buf := d ++ (s.conns i).buf.drop d.length
                  staged := (s.conns i).staged ++ d } }, some Exit.EXIT_FAILURE))
    (sink : (s.conns i).needs_flush = false → ∀ d : List Byte, d ≠ [] →
      env.read s.log.length (s.conns i).buf_sz = ReadRes.data d →
      i + 1 = s.n_children → env.sigpipe (s.log.length + 1) = false →
      0 ≤ env.write (s.log.length + 1) d.length →
      Q ({ s with
            log := s.log ++
              [Event.read i d.length,
               Event.write_stdout d.length (env.write (s.log.length + 1) d.length)]
            conns := setConn s.conns i
              { s.conns i with
                  buf := d ++ (s.conns i).buf.drop d.length
                  staged := (s.conns i).staged ++ d
                  flushed := (s.conns i).flushed ++
                    d.take (env.write (s.log.length + 1) d.length).toNat } },
          if env.write (s.log.length + 1) d.length = d.length then none
          else some Exit.assert_failed))
    (stage : (s.conns i).needs_flush = false → ∀ d : List Byte, d ≠ [] →
      env.read s.log.length (s.conns i).buf_sz = ReadRes.data d →
      i + 1 < s.n_children →
      Q ({ s with
            log := s.log ++ [Event.read i d.length]
            conns := setConn s.conns i
              { s.conns i with
                  buf := d ++ (s.conns i).buf.drop d.length
                  staged := (s.conns i).staged ++ d
                  bytes_read := d.length
                  needs_flush := !(s.conns i).finished_reading }
            wfds := FD_SET (s.conns (i + 1)).wfd s.wfds },
          if (s.conns (i + 1)).wfd < FD_SETSIZE then none else some Exit.out_of_bounds)) :
    Q (readBranch env i s) := by
  by_cases hnf : (s.conns i).needs_flush = true
  · have := gated hnf
    simpa [readBranch, hnf] using this
  · have hnf : (s.conns i).needs_flush = false := by simpa using hnf
    cases hr : env.read s.log.length (s.conns i).buf_sz with
    | error =>
      have := read_error hnf hr
      simpa [readBranch, hnf, hr, ReadRes.count] using this
    | data d =>
      by_cases hd : d = []
      · subst hd
        have heta : ({ s.conns i with needs_flush := false } : conn) = s.conns i := by
          rw [← hnf]
        by_cases hl : i + 1 = s.n_children
        · have := eof_last hnf hr hl
          simpa [readBranch, readEOF, hnf, hr, ReadRes.count, ReadRes.bytes, hl, heta] using this
        · have hlt : i + 1 < s.n_children := by omega
          by_cases hc : env.close (s.log.length + 1) = 0
          · have := eof hnf hr hlt hc
            by_cases hlim : (s.conns (i + 1)).wfd < FD_SETSIZE
            · simpa [readBranch, readEOF, readDeliver, hnf, hr, ReadRes.count, ReadRes.bytes,
                hl, hlt, hc, setConn_apply, hlim] using this
            · simpa [readBranch, readEOF, readDeliver, hnf, hr, ReadRes.count, ReadRes.bytes,
                hl, hlt, hc, setConn_apply, hlim] using this
          · have := eof_close_error hnf hr hlt hc
            simpa [readBranch, readEOF, hnf, hr, ReadRes.count, ReadRes.bytes, hl, hc, heta] using this
      · have hlen : (d.length : Int) ≠ 0 := by
          simpa using hd
        have hpos : ¬ ((d.length : Int) < 0) := by omega
        by_cases hl : i + 1 = s.n_children
        · cases hk : env.sigpipe (s.log.length + 1) with
          | true =>
            have := sink_killed hnf d hd hr hl hk
            simpa [readBranch, readDeliver, hnf, hr, ReadRes.count, ReadRes.bytes, hl, hk,
              hlen, hpos, hd] using this
          | false =>
            by_cases hw : env.write (s.log.length + 1) d.length < 0
            · have := sink_error hnf d hd hr hl hk hw
              simpa [readBranch, readDeliver, hnf, hr, ReadRes.count, ReadRes.bytes, hl, hw,
                hlen, hpos, hd, hk] using this
            · have hw' : 0 ≤ env.write (s.log.length + 1) d.length := by omega
              have := sink hnf d hd hr hl hk hw'
              by_cases he : env.write (s.log.length + 1) d.length = d.length
              · simpa [readBranch, readDeliver, hnf, hr, ReadRes.count, ReadRes.bytes, hl, hw,
                  hlen, hpos, hd, he, hk] using this
              · simpa [readBranch, readDeliver, hnf, hr, ReadRes.count, ReadRes.bytes, hl, hw,
                  hlen, hpos, hd, he, hk] using this
        · have hlt : i + 1 < s.n_children := by omega
          have := stage hnf d hd hr hlt
          by_cases hlim : (s.conns (i + 1)).wfd < FD_SETSIZE
          · simpa [readBranch, readDeliver, hnf, hr, ReadRes.count, ReadRes.bytes, hl, hlt,
              hlen, hpos, hd, setConn_apply, hlim] using this
          · simpa [readBranch, readDeliver, hnf, hr, ReadRes.count, ReadRes.bytes, hl, hlt,
              hlen, hpos, hd, setConn_apply, hlim] using this

/-- The paths through the writable branch for an index `i ≥ 1`, each with its
final state, when the previous boundary is not both finished and flushing. -/
theorem writeBranch_cases (env : Env) (i : Nat) (s : State) (hi : i ≠ 0)
    (hfin : (s.conns (i - 1)).finished_reading = true →
      (s.conns (i - 1)).needs_flush = false)
    (Q : State × Option Exit → Prop)
    (spurious : (s.conns (i - 1)).needs_flush = false →
      (s.conns (i - 1)).finished_reading = false →
      Q ({ s with wfds := FD_CLR (s.conns i).wfd s.wfds }, none))
    (drain_close_error : (s.conns (i - 1)).needs_flush = false →
      (s.conns (i - 1)).finished_reading = true → env.close s.log.length ≠ 0 →
      Q ({ s with
            wfds := FD_CLR (s.conns i).wfd s.wfds
            log := s.log ++ [Event.close (s.conns i).wfd (env.close s.log.length)]
            closed := (s.conns i).wfd :: s.closed }, some Exit.EXIT_FAILURE))
    (drain : (s.conns (i - 1)).needs_flush = false →
      (s.conns (i - 1)).finished_reading = true → env.close s.log.length = 0 →
      Q ({ s with
            wfds := FD_CLR (s.conns i).wfd (FD_CLR (s.conns i).wfd s.wfds)
            log := s.log ++ [Event.close (s.conns i).wfd 0]
            closed := (s.conns i).wfd :: s.closed }, none))
    (flush_killed : (s.conns (i - 1)).needs_flush = true →
      (s.conns (i - 1)).finished_reading = false → env.sigpipe s.log.length = true →
      Q ({ s with
            log := s.log ++
              [Event.sigpipe
                ((s.conns (i - 1)).bytes_read - (s.conns (i - 1)).bytes_written)] },
          some Exit.killed_by_signal))
    (write_error : (s.conns (i - 1)).needs_flush = true →
      (s.conns (i - 1)).finished_reading = false → env.sigpipe s.log.length = false →
      env.write s.log.length
        ((s.conns (i - 1)).bytes_read - (s.conns (i - 1)).bytes_written) < 0 →
      Q ({ s with
            log := s.log ++
              [Event.write i ((s.conns (i - 1)).bytes_read - (s.conns (i - 1)).bytes_written)
                (env.write s.log.length
                  ((s.conns (i - 1)).bytes_read - (s.conns (i - 1)).bytes_written))] },
          some Exit.EXIT_FAILURE))
    (complete : (s.conns (i - 1)).needs_flush = true →
      (s.conns (i - 1)).finished_reading = false → env.sigpipe s.log.length = false →
      ∀ w : Int, w = env.write s.log.length
        ((s.conns (i - 1)).bytes_read - (s.conns (i - 1)).bytes_written) →
      0 ≤ w → (s.conns (i - 1)).bytes_written + w = (s.conns (i - 1)).bytes_read →
      Q ({ s with
            log := s.log ++
              [Event.write i ((s.conns (i - 1)).bytes_read - (s.conns (i - 1)).bytes_written) w]
            conns := setConn s.conns (i - 1)
              { s.conns (i - 1) with
                  bytes_written := 0
                  needs_flush := false
                  flushed := (s.conns (i - 1)).flushed ++
                    (((s.conns (i - 1)).buf.drop (s.conns (i - 1)).bytes_written.toNat).take
                      ((s.conns (i - 1)).bytes_read -
                        (s.conns (i - 1)).bytes_written).toNat).take w.toNat }
            rfds := FD_SET (s.conns (i - 1)).rfd s.rfds },
          if (s.conns (i - 1)).rfd < FD_SETSIZE then none else some Exit.out_of_bounds))
    (short_write : (s.conns (i - 1)).needs_flush = true →
      (s.conns (i - 1)).finished_reading = false → env.sigpipe s.log.length = false →
      ∀ w : Int, w = env.write s.log.length
        ((s.conns (i - 1)).bytes_read - (s.conns (i - 1)).bytes_written) →
      0 ≤ w → (s.conns (i - 1)).bytes_written + w ≠ (s.conns (i - 1)).bytes_read →
      Q ({ s with
            log := s.log ++
              [Event.write i ((s.conns (i - 1)).bytes_read - (s.conns (i - 1)).bytes_written) w]
            conns := setConn s.conns (i - 1)
              { s.conns (i - 1) with
                  bytes_written := (s.conns (i - 1)).bytes_written + w
                  flushed := (s.conns (i - 1)).flushed ++
                    (((s.conns (i - 1)).buf.drop (s.conns (i - 1)).bytes_written.toNat).take
                      ((s.conns (i - 1)).bytes_read -
                        (s.conns (i - 1)).bytes_written).toNat).take w.toNat } }, none)) :
    Q (writeBranch env i s) := by
  have hne : i ≠ i - 1 := by omega
  by_cases hnf : (s.conns (i - 1)).needs_flush = true
  · have hf : (s.conns (i - 1)).finished_reading = false := by
      cases h : (s.conns (i - 1)).finished_reading
      · rfl
      · rw [hfin h] at hnf
        cases hnf
    cases hk : env.sigpipe s.log.length with
    | true =>
      have := flush_killed hnf hf hk
      simpa [writeBranch, flush, hi, hnf, hk] using this
    | false =>
      by_cases hw : env.write s.log.length
          ((s.conns (i - 1)).bytes_read - (s.conns (i - 1)).bytes_written) < 0
      · have := write_error hnf hf hk hw
        simpa [writeBranch, flush, hi, hnf, hw, hk] using this
      · have hw' : 0 ≤ env.write s.log.length
            ((s.conns (i - 1)).bytes_read - (s.conns (i - 1)).bytes_written) := by omega
        by_cases he : (s.conns (i - 1)).bytes_written + env.write s.log.length
            ((s.conns (i - 1)).bytes_read - (s.conns (i - 1)).bytes_written) =
            (s.conns (i - 1)).bytes_read
        · have := complete hnf hf hk _ rfl hw' he
          by_cases hlim : (s.conns (i - 1)).rfd < FD_SETSIZE
          · simpa [writeBranch, flush, hi, hnf, hw, he, hf, setConn_apply, hne, hk, hlim]
              using this
          · simpa [writeBranch, flush, hi, hnf, hw, he, hf, setConn_apply, hne, hk, hlim]
              using this
        · have := short_write hnf hf hk _ rfl hw' he
          simpa [writeBranch, flush, hi, hnf, hw, he, hf, setConn_apply, hne, hk] using this
  · have hnf : (s.conns (i - 1)).needs_flush = false := by simpa using hnf
    by_cases hf : (s.conns (i - 1)).finished_reading = true
    · by_cases hc : env.close s.log.length = 0
      · have := drain hnf hf hc
        simpa [writeBranch, flush, hi, hnf, hf, hc] using this
      · have := drain_close_error hnf hf hc
        simpa [writeBranch, flush, hi, hnf, hf, hc] using this
    · have hf : (s.conns (i - 1)).finished_reading = false := by simpa using hf
      have := spurious hnf hf
      simpa [writeBranch, flush, hi, hnf, hf] using this

/-- Storing at most `buf_sz` bytes at the start of the buffer keeps its length. -/
theorem stored_length {c : conn} {d : List Byte} (hb : c.buf.length = c.buf_sz)
    (hle : (d.length : Int) ≤ c.buf_sz) :
    (d ++ c.buf.drop d.length).length = c.buf_sz := by
  rw [List.length_append, List.length_drop, hb]
  omega

/-- The readable branch keeps the counters of every boundary in range. -/
theorem readBranch_ok (env : Env) {s : State} {i : Nat} (hio : TransferBounds env)
    (hi : i < s.n_children) (h : ∀ j, ConnOK (s.conns j)) :
    ∀ j, ConnOK ((readBranch env i s).1.conns j) := by
  have hrd := hio.read_le s.log.length (s.conns i).buf_sz
  have hoki := h i
  apply readBranch_cases env i s hi (fun r => ∀ j, ConnOK (r.1.conns j))
  · exact fun _ => h
  · exact fun _ _ => h
  · exact fun _ _ _ => h
  · exact fun _ _ _ _ => h
  · intro hnf _ _ _ j
    simp only [setConn_apply]
    split
    · exact ⟨fun _ => rfl, fun _ => hoki.idle_zero hnf, fun h => Bool.noConfusion h,
        hoki.written_nonneg, le_of_eq (hoki.idle_zero hnf), Int.ofNat_nonneg _, hoki.buf_len⟩
    · exact h j
  · intro _ d _ hr _ _ j
    have hlen := stored_length hoki.buf_len (by rw [hr] at hrd; exact hrd)
    simp only [setConn_apply]
    split
    · exact ⟨hoki.fin_idle, hoki.idle_zero, hoki.flush_lt, hoki.written_nonneg,
        hoki.written_le, hoki.read_le, hlen⟩
    · exact h j
  · intro _ d _ hr _ _ _ j
    have hlen := stored_length hoki.buf_len (by rw [hr] at hrd; exact hrd)
    simp only [setConn_apply]
    split
    · exact ⟨hoki.fin_idle, hoki.idle_zero, hoki.flush_lt, hoki.written_nonneg,
        hoki.written_le, hoki.read_le, hlen⟩
    · exact h j
  · intro _ d _ hr _ _ _ j
    have hlen := stored_length hoki.buf_len (by rw [hr] at hrd; exact hrd)
    simp only [setConn_apply]
    split
    · exact ⟨hoki.fin_idle, hoki.idle_zero, hoki.flush_lt, hoki.written_nonneg,
        hoki.written_le, hoki.read_le, hlen⟩
    · exact h j
  · intro hnf d hdne hr _ j
    have hbw := hoki.idle_zero hnf
    have hlen : 0 < (d.length : Int) := by
      have : 0 < d.length := List.length_pos.2 hdne
      omega
    have hle : (d.length : Int) ≤ (s.conns i).buf_sz := by
      rw [hr] at hrd
      exact hrd
    simp only [setConn_apply]
    split
    · refine ⟨fun h => ?_, fun _ => hbw, fun _ => ?_, hoki.written_nonneg, ?_, hle,
        stored_length hoki.buf_len hle⟩
      · simpa using h
      · show (s.conns i).bytes_written < (d.length : Int)
        omega
      · show (s.conns i).bytes_written ≤ (d.length : Int)
        omega
    · exact h j

/-- The writable branch keeps the counters of every boundary in range. -/
theorem writeBranch_ok (env : Env) {s : State} (i : Nat) (hio : TransferBounds env)
    (h : ∀ j, ConnOK (s.conns j)) : ∀ j, ConnOK ((writeBranch env i s).1.conns j) := by
  by_cases hi : i = 0
  · simpa [writeBranch, hi] using h
  · obtain ⟨k, rfl⟩ : ∃ k, i = k + 1 := ⟨i - 1, by omega⟩
    have hokk := h k
    apply writeBranch_cases env (k + 1) s (Nat.succ_ne_zero k)
      (by simpa using hokk.fin_idle) (fun r => ∀ j, ConnOK (r.1.conns j))
    all_goals simp only [Nat.add_sub_cancel]
    · exact fun _ _ => h
    · exact fun _ _ _ => h
    · exact fun _ _ _ => h
    · exact fun _ _ _ => h
    · exact fun _ _ _ _ => h
    · intro hnf hf _ w hw hw0 he j
      simp only [setConn_apply]
      split
      · refine ⟨fun _ => rfl, fun _ => rfl, fun h => Bool.noConfusion h, le_refl _, ?_,
          hokk.read_le, hokk.buf_len⟩
        show (0 : Int) ≤ (s.conns k).bytes_read
        have := hokk.written_nonneg
        have := hokk.written_le
        omega
      · exact h j
    · intro hnf hf _ w hw hw0 he j
      simp only [setConn_apply]
      split
      · have hle := hio.write_le s.log.length
          ((s.conns k).bytes_read - (s.conns k).bytes_written)
        rw [← hw] at hle
        refine ⟨hokk.fin_idle, fun h => ?_, fun _ => ?_, ?_, ?_, hokk.read_le, hokk.buf_len⟩
        · rw [hnf] at h
          cases h
        · show (s.conns k).bytes_written + w < (s.conns k).bytes_read
          omega
        · show 0 ≤ (s.conns k).bytes_written + w
          have := hokk.written_nonneg
          omega
        · show (s.conns k).bytes_written + w ≤ (s.conns k).bytes_read
          omega
      · exact h j

/-- Replacing `conns[i]` by a `conn` with the same handles and flags keeps the
invariant. -/
theorem sinv_same_flags {N : Nat} {rfd wfd : Nat → Nat} {s : State}
    (hs : SInv N rfd wfd s) (i : Nat) (c : conn) (log : List Event)
    (hr : c.rfd = (s.conns i).rfd) (hw : c.wfd = (s.conns i).wfd)
    (hnf : c.needs_flush = (s.conns i).needs_flush)
    (hf : c.finished_reading = (s.conns i).finished_reading) :
    SInv N rfd wfd { s with conns := setConn s.conns i c, log := log } := by
  obtain ⟨h1, h2, h3, h4, h5, h6, h7, h8, h9, h10, h11⟩ := hs
  refine ⟨h1, ?_, ?_, ?_, ?_, ?_, ?_, ?_, ?_, h10, ?_⟩ <;> clear h10 <;> intro j <;>
    by_cases hji : j = i <;> simp_all [setConn_apply]

set_option maxHeartbeats 1000000 in
/-- The readable branch keeps the invariant of the flags and the monitored sets. -/
theorem readBranch_sinv (env : Env) {N : Nat} {rfd wfd : Nat → Nat} {s : State} {i : Nat}
    (hd : Distinct N rfd wfd) (hr : InRange N rfd wfd) (hs : SInv N rfd wfd s) (hi : i < N) :
    SInv N rfd wfd (readBranch env i s).1 := by
  have hi' : i < s.n_children := by rw [hs.n_eq]; exact hi
  have hs' := hs
  obtain ⟨h1, h2, h3, h4, h5, h6, h7, h8, h9, h10, h11⟩ := hs
  apply readBranch_cases env i s hi' (fun r => SInv N rfd wfd r.1)
  · intro hnf
    refine ⟨h1, h2, h3, h4, h5, ?_, ?_, h8, h9, h10, h11⟩
    · intro j hj hf
      simp only [mem_FD_CLR]
      intro h
      exact absurd h.1 (h6 j hj hf)
    · intro j hj hnfj hfj
      simp only [mem_FD_CLR, h2]
      refine ⟨h7 j hj hnfj hfj, ?_⟩
      intro h
      have := hd.rfd_inj j i hj hi h
      subst this
      rw [hnf] at hnfj
      cases hnfj
  · intro _ _
    exact ⟨h1, h2, h3, h4, h5, h6, h7, h8, h9, h10, h11⟩
  · intro _ _ _
    exact ⟨h1, h2, h3, h4, h5, h6, h7, h8, h9, h10, h11⟩
  · intro hnf hr hlt hc
    refine ⟨h1, h2, h3, h4, h5, h6, h7, h8, ?_, h10, ?_⟩
    · intro j hj hf hnc
      exact h9 j hj hf (fun hmem => hnc (List.mem_cons_of_mem _ hmem))
    · intro j hj hmem
      rcases List.mem_cons.1 hmem with h | h
      · rw [h2] at h
        exact absurd h.symm (hd.rfd_ne_wfd i (j + 1) hi hj)
      · exact h11 j hj h
  · intro hnf hrd hlt hc
    rw [h1] at hlt
    have hlt1 : wfd (i + 1) < FD_SETSIZE := hr.wfd_lt _ hlt
    clear hr
    have hne : ∀ j, j < N → j ≠ i → rfd j ≠ rfd i :=
      fun j hj hji h => hji (hd.rfd_inj j i hj hi h)
    have hrw : ∀ j, j + 1 < N → wfd (j + 1) ≠ rfd i :=
      fun j hj h => hd.rfd_ne_wfd i (j + 1) hi hj h.symm
    have hsub : ∀ x, x ∈ FD_SET (s.conns (i + 1)).wfd s.wfds →
        ∃ k, 1 ≤ k ∧ k < N ∧ x = wfd k := by
      intro x hx
      rcases mem_FD_SET.1 hx with ⟨_, h⟩ | h
      · exact ⟨i + 1, by omega, by omega, by rw [h, h3]⟩
      · exact h10 x h
    refine ⟨h1, ?_, ?_, ?_, ?_, ?_, ?_, ?_, ?_, hsub, ?_⟩ <;>
      clear hsub hs' hrd hc h10 <;> intro j <;>
      by_cases hji : j = i <;> simp_all [setConn_apply]
  · intro hnf d hdne hrd hl hw
    exact sinv_same_flags hs' i _ _ rfl rfl rfl rfl
  · intro hnf d hdne hrd hl _ hw
    exact sinv_same_flags hs' i _ _ rfl rfl rfl rfl
  · intro hnf d hdne hrd hl _ hw
    exact sinv_same_flags hs' i _ _ rfl rfl rfl rfl
  · intro hnf d hdne hrd hlt
    rw [h1] at hlt
    have hlt1 : wfd (i + 1) < FD_SETSIZE := hr.wfd_lt _ hlt
    clear hr
    have hsub : ∀ x, x ∈ FD_SET (s.conns (i + 1)).wfd s.wfds →
        ∃ k, 1 ≤ k ∧ k < N ∧ x = wfd k := by
      intro x hx
      rcases mem_FD_SET.1 hx with ⟨_, h⟩ | h
      · exact ⟨i + 1, by omega, by omega, by rw [h, h3]⟩
      · exact h10 x h
    refine ⟨h1, ?_, ?_, ?_, ?_, ?_, ?_, ?_, ?_, hsub, ?_⟩ <;>
      clear hsub hs' hrd h10 <;> intro j <;>
      by_cases hji : j = i <;> simp_all [setConn_apply]

set_option maxHeartbeats 1000000 in
/-- The writable branch keeps the invariant of the flags and the monitored sets. -/
theorem writeBranch_sinv (env : Env) {N : Nat} {rfd wfd : Nat → Nat} {s : State} {k : Nat}
    (hd : Distinct N rfd wfd) (hr : InRange N rfd wfd) (hs : SInv N rfd wfd s)
    (hk : k + 1 < N) :
    SInv N rfd wfd (writeBranch env (k + 1) s).1 := by
  have hlt1 : rfd k < FD_SETSIZE := hr.rfd_lt _ (by omega)
  clear hr
  have hs' := hs
  obtain ⟨h1, h2, h3, h4, h5, h6, h7, h8, h9, h10, h11⟩ := hs
  have hwne : ∀ j, j + 1 < N → j ≠ k → wfd (j + 1) ≠ wfd (k + 1) :=
    fun j hj hjk h => hjk (by have := hd.wfd_inj (j + 1) (k + 1) hj hk h; omega)
  have hrne : ∀ j, j < N → j ≠ k → rfd j ≠ rfd k :=
    fun j hj hjk h => hjk (hd.rfd_inj j k hj (by omega) h)
  apply writeBranch_cases env (k + 1) s (Nat.succ_ne_zero k)
    (by simpa using h4 k) (fun r => SInv N rfd wfd r.1)
  all_goals simp only [Nat.add_sub_cancel]
  · intro hnf hf
    have hsub : ∀ x, x ∈ FD_CLR (s.conns (k + 1)).wfd s.wfds →
        ∃ j, 1 ≤ j ∧ j < N ∧ x = wfd j := fun x hx => h10 x (mem_FD_CLR.1 hx).1
    refine ⟨h1, h2, h3, h4, h5, h6, h7, ?_, ?_, hsub, h11⟩ <;>
      clear hsub hs' h10 <;> intro j <;>
      by_cases hji : j = k <;> simp_all
  · intro hnf hf hc
    have hsub : ∀ x, x ∈ FD_CLR (s.conns (k + 1)).wfd s.wfds →
        ∃ j, 1 ≤ j ∧ j < N ∧ x = wfd j := fun x hx => h10 x (mem_FD_CLR.1 hx).1
    refine ⟨h1, h2, h3, h4, h5, h6, h7, ?_, ?_, hsub, ?_⟩ <;>
      clear hsub hs' h10 hc <;> intro j <;>
      by_cases hji : j = k <;> simp_all
  · intro hnf hf hc
    have hsub : ∀ x, x ∈ FD_CLR (s.conns (k + 1)).wfd (FD_CLR (s.conns (k + 1)).wfd s.wfds) →
        ∃ j, 1 ≤ j ∧ j < N ∧ x = wfd j :=
      fun x hx => h10 x (mem_FD_CLR.1 (mem_FD_CLR.1 hx).1).1
    refine ⟨h1, h2, h3, h4, h5, h6, h7, ?_, ?_, hsub, ?_⟩ <;>
      clear hsub hs' h10 hc <;> intro j <;>
      by_cases hji : j = k <;> simp_all
  · intro _ _ _
    exact ⟨h1, h2, h3, h4, h5, h6, h7, h8, h9, h10, h11⟩
  · intro _ _ _ _
    exact ⟨h1, h2, h3, h4, h5, h6, h7, h8, h9, h10, h11⟩
  · intro hnf hf _ w hw hw0 he
    refine ⟨h1, ?_, ?_, ?_, ?_, ?_, ?_, ?_, ?_, h10, ?_⟩ <;>
      clear hs' h10 hw he hw0 <;> intro j <;>
      by_cases hji : j = k <;> simp_all [setConn_apply]
  · intro hnf hf _ w hw hw0 he
    exact sinv_same_flags hs' k _ _ rfl rfl rfl rfl

/-- The readable branch, unless it aborts, keeps every byte read accounted for;
it needs a boundary that reads not to have finished reading. -/
theorem readBranch_dinv (env : Env) {s : State} {i : Nat} (hi : i < s.n_children)
    (hok : ConnOK (s.conns i)) (hdata : DInv s)
    (hfin : (s.conns i).needs_flush = false → (s.conns i).finished_reading = false) :
    ((readBranch env i s).2 = none ∨ (readBranch env i s).2 = some Exit.EXIT_SUCCESS) →
      DInv (readBranch env i s).1 := by
  have hdi := hdata i
  apply readBranch_cases env i s hi
    (fun r => (r.2 = none ∨ r.2 = some Exit.EXIT_SUCCESS) → DInv r.1)
  · intro _ _
    exact hdata
  · intro _ _ _
    exact hdata
  · intro _ _ _ _
    exact hdata
  · intro _ _ _ _ h
    simp at h
  · intro hnf _ _ _ _ j
    simp only [setConn_apply]
    split
    · simp only [pending, hnf] at hdi
      simpa [pending] using hdi
    · exact hdata j
  · intro _ _ _ _ _ _ h
    simp at h
  · intro _ _ _ _ _ _ _ h
    simp at h
  · intro hnf d _ _ _ _ hw h j
    simp only [setConn_apply]
    split
    · by_cases he : env.write (s.log.length + 1) d.length = d.length
      · simp only [pending, hnf] at hdi
        simp only [List.append_nil, Bool.false_eq_true, if_false] at hdi
        simp [pending, hnf, he, hdi]
      · simp [he] at h
    · exact hdata j
  · intro hnf d _ _ _ _ j
    simp only [setConn_apply]
    split
    · have hf := hfin hnf
      have hbw := hok.idle_zero hnf
      simp only [pending, hnf] at hdi
      simp only [List.append_nil, Bool.false_eq_true, if_false] at hdi
      simp [pending, hf, hbw, hdi]
    · exact hdata j

/-- A slice splits into its first `n` elements and the slice that starts `n`
further. -/
theorem take_slice (l : List Byte) (a m n : Nat) (h : n ≤ m) :
    ((l.drop a).take m).take n ++ (l.drop (a + n)).take (m - n) = (l.drop a).take m := by
  have h1 : ((l.drop a).take m).take n = (l.drop a).take n := by
    rw [List.take_take, min_eq_left h]
  have h2 : l.drop (a + n) = (l.drop a).drop n := by
    rw [List.drop_drop, Nat.add_comm]
  rw [h1, h2, ← List.take_add]
  congr 1
  omega

/-- The writable branch keeps every byte read accounted for. -/
theorem writeBranch_dinv (env : Env) {s : State} {k : Nat} (hio : TransferBounds env)
    (hok : ConnOK (s.conns k)) (hdata : DInv s) :
    DInv (writeBranch env (k + 1) s).1 := by
  have hdk := hdata k
  apply writeBranch_cases env (k + 1) s (Nat.succ_ne_zero k)
    (by simpa using hok.fin_idle) (fun r => DInv r.1)
  all_goals simp only [Nat.add_sub_cancel]
  · intro _ _
    exact hdata
  · intro _ _ _
    exact hdata
  · intro _ _ _
    exact hdata
  · intro _ _ _
    exact hdata
  · intro _ _ _ _
    exact hdata
  · intro hnf _ _ w _ hw0 he j
    simp only [setConn_apply]
    split
    · simp only [pending, hnf, if_true] at hdk
      have hw : w = (s.conns k).bytes_read - (s.conns k).bytes_written := by omega
      simp only [pending, Bool.false_eq_true, if_false, List.append_nil]
      rw [← hdk, hw, List.take_take, min_self]
    · exact hdata j
  · intro hnf _ _ w hw hw0 he j
    simp only [setConn_apply]
    split
    · simp only [pending, hnf, if_true] at hdk
      have hle := hio.write_le s.log.length ((s.conns k).bytes_read - (s.conns k).bytes_written)
      rw [← hw] at hle
      have hbw := hok.written_nonneg
      simp only [pending, hnf, if_true]
      rw [← hdk, List.append_assoc]
      congr 1
      have e1 : ((s.conns k).bytes_written + w).toNat = (s.conns k).bytes_written.toNat + w.toNat := by
        omega
      have e2 : ((s.conns k).bytes_read - ((s.conns k).bytes_written + w)).toNat =
          ((s.conns k).bytes_read - (s.conns k).bytes_written).toNat - w.toNat := by
        omega
      rw [e1, e2]
      apply take_slice
      omega
    · exact hdata j

/-- The readable branch at index `i` changes no other boundary. -/
theorem readBranch_frame (env : Env) {s : State} {i : Nat} (hi : i < s.n_children) :
    ∀ j, j ≠ i → (readBranch env i s).1.conns j = s.conns j := by
  apply readBranch_cases env i s hi (fun r => ∀ j, j ≠ i → r.1.conns j = s.conns j)
  all_goals intros
  all_goals simp_all [setConn_apply]

/-- The readable branch at an index inside the array, with the next write
handle below `FD_SETSIZE`, stays inside the array and the sets. -/
theorem readBranch_in_bounds (env : Env) {s : State} {i : Nat} (hi : i < s.n_children)
    (hw : i + 1 < s.n_children → (s.conns (i + 1)).wfd < FD_SETSIZE) :
    (readBranch env i s).2 ≠ some Exit.out_of_bounds := by
  apply readBranch_cases env i s hi (fun r => r.2 ≠ some Exit.out_of_bounds)
  all_goals intros
  all_goals simp_all

/-- The writable branch changes no `finished_reading` flag. -/
theorem writeBranch_fin (env : Env) {s : State} {k : Nat}
    (hfin : (s.conns k).finished_reading = true → (s.conns k).needs_flush = false) :
    ∀ j, ((writeBranch env (k + 1) s).1.conns j).finished_reading =
      (s.conns j).finished_reading := by
  apply writeBranch_cases env (k + 1) s (Nat.succ_ne_zero k)
    (by simpa using hfin)
    (fun r => ∀ j, (r.1.conns j).finished_reading = (s.conns j).finished_reading)
  all_goals simp only [Nat.add_sub_cancel]
  all_goals intros
  all_goals simp only [setConn_apply]
  all_goals split
  all_goals simp_all

/-- The writable branch at an index `k + 1`, with the read handle of
`conns[k]` below `FD_SETSIZE`, stays inside the array and the sets. -/
theorem writeBranch_in_bounds (env : Env) {s : State} {k : Nat}
    (hfin : (s.conns k).finished_reading = true → (s.conns k).needs_flush = false)
    (hr : (s.conns k).rfd < FD_SETSIZE) :
    (writeBranch env (k + 1) s).2 ≠ some Exit.out_of_bounds := by
  apply writeBranch_cases env (k + 1) s (Nat.succ_ne_zero k)
    (by simpa using hfin) (fun r => r.2 ≠ some Exit.out_of_bounds)
  all_goals simp only [Nat.add_sub_cancel]
  all_goals intros
  all_goals simp [hr]

/-- The readable branch extends a trace without ending result by results that
do not end the loop, up to the one that makes it exit. -/
theorem readBranch_log (env : Env) {s : State} {i : Nat} (hp : Posix env)
    (hi : i < s.n_children)
    (hwr : i + 1 < s.n_children → (s.conns (i + 1)).wfd < FD_SETSIZE)
    (hlog : LogOK s.n_children s.log none) :
    LogOK s.n_children (readBranch env i s).1.log (readBranch env i s).2 := by
  apply readBranch_cases env i s hi (fun r => LogOK s.n_children r.1.log r.2)
  · intro _
    exact hlog
  · intro _ _
    exact ⟨s.log, _, rfl, hlog, by simp [fatal]⟩
  · intro _ _ hl
    exact ⟨s.log, _, rfl, hlog, by simp [fatal, hl]⟩
  · intro _ _ hlt hc
    refine ⟨s.log ++ [Event.read i 0],
      Event.close (s.conns i).rfd (env.close (s.log.length + 1)), by simp, ?_, ?_⟩
    · intro e he
      rcases List.mem_append.1 he with h | h
      · exact hlog e h
      · simp at h
        subst h
        simp [fatal]
        omega
    · rcases hp.close_rc (s.log.length + 1) with h | h
      · exact absurd h hc
      · simp [fatal, h]
  · intro _ _ hlt hc
    rw [if_pos (hwr hlt)]
    intro e he
    simp only [List.mem_append, List.mem_cons, List.mem_singleton, List.not_mem_nil,
      or_false] at he
    rcases he with h | h | h
    · exact hlog e h
    · subst h
      simp [fatal]
      omega
    · subst h
      simp [fatal]
  · intro _ d hd _ _ _
    refine ⟨s.log ++ [Event.read i d.length], Event.sigpipe d.length, by simp, ?_,
      by simp [fatal]⟩
    intro e he
    rcases List.mem_append.1 he with h | h
    · exact hlog e h
    · simp at h
      subst h
      simp [fatal, hd]
  · intro _ d hd _ _ _ hw
    refine ⟨s.log ++ [Event.read i d.length],
      Event.write_stdout d.length (env.write (s.log.length + 1) d.length), by simp, ?_,
      by simp [fatal, hw]⟩
    intro e he
    rcases List.mem_append.1 he with h | h
    · exact hlog e h
    · simp at h
      subst h
      simp [fatal, hd]
  · intro _ d hd _ _ _ hw
    have hread : ∀ e ∈ s.log ++ [Event.read i d.length], fatal s.n_children e = none := by
      intro e he
      rcases List.mem_append.1 he with h | h
      · exact hlog e h
      · simp at h
        subst h
        simp [fatal, hd]
    by_cases he : env.write (s.log.length + 1) d.length = d.length
    · simp only [he, if_true]
      intro e hmem
      simp only [List.mem_append, List.mem_cons, List.mem_singleton, List.not_mem_nil,
        or_false] at hmem
      rcases hmem with h | h | h
      · exact hlog e h
      · exact hread e (by simp [h])
      · subst h
        simp [fatal]
    · simp only [he, if_false]
      refine ⟨s.log ++ [Event.read i d.length],
        Event.write_stdout d.length (env.write (s.log.length + 1) d.length), by simp, hread, ?_⟩
      have : ¬ env.write (s.log.length + 1) d.length < 0 := by omega
      simp [fatal, this, he]
  · intro _ d hd _ hlt
    rw [if_pos (hwr hlt)]
    intro e he
    rcases List.mem_append.1 he with h | h
    · exact hlog e h
    · simp at h
      subst h
      simp [fatal, hd]

/-- The writable branch extends a trace without ending result by results that
do not end the loop, up to the one that makes it exit. -/
theorem writeBranch_log (env : Env) {s : State} {k : Nat} (hp : Posix env)
    (hfin : (s.conns k).finished_reading = true → (s.conns k).needs_flush = false)
    (hrd : (s.conns k).rfd < FD_SETSIZE)
    (hlog : LogOK s.n_children s.log none) :
    LogOK s.n_children (writeBranch env (k + 1) s).1.log (writeBranch env (k + 1) s).2 := by
  apply writeBranch_cases env (k + 1) s (Nat.succ_ne_zero k)
    (by simpa using hfin) (fun r => LogOK s.n_children r.1.log r.2)
  all_goals simp only [Nat.add_sub_cancel]
  · intro _ _
    exact hlog
  · intro _ _ hc
    refine ⟨s.log, _, rfl, hlog, ?_⟩
    rcases hp.close_rc s.log.length with h | h
    · exact absurd h hc
    · simp [fatal, h]
  · intro _ _ hc e he
    rcases List.mem_append.1 he with h | h
    · exact hlog e h
    · simp at h
      subst h
      simp [fatal]
  · intro _ _ _
    exact ⟨s.log, _, rfl, hlog, by simp [fatal]⟩
  · intro _ _ _ hw
    exact ⟨s.log, _, rfl, hlog, by simp [fatal, hw]⟩
  · intro _ _ _ w _ hw0 _
    rw [if_pos hrd]
    intro e he
    rcases List.mem_append.1 he with h | h
    · exact hlog e h
    · simp at h
      subst h
      simp [fatal]
      omega
  · intro _ _ _ w _ hw0 _ e he
    rcases List.mem_append.1 he with h | h
    · exact hlog e h
    · simp at h
      subst h
      simp [fatal]
      omega

/-- A step keeps the counters of every boundary in range. -/
theorem step_ok {env : Env} {c : Cfg} (hio : TransferBounds env)
    (h : ∀ j, ConnOK (c.st.conns j)) : ∀ j, ConnOK ((step env c).st.conns j) := by
  obtain ⟨st, pc⟩ := c
  cases pc with
  | exited e => exact h
  | select =>
    simp only [step]
    split
    · exact h
    · split <;> exact h
  | for_read i n dr dw =>
    simp only [step]
    by_cases hg : i < st.n_children ∧ n > 0
    · rw [if_pos hg]
      by_cases hlt : (st.conns i).rfd < FD_SETSIZE
      swap
      · rw [if_neg hlt]
        exact h
      rw [if_pos hlt]
      by_cases hr : FD_ISSET (st.conns i).rfd dr = true
      · rw [if_pos hr]
        have := readBranch_ok env hio hg.1 h
        cases hres : (readBranch env i st).2 <;> exact this
      · rw [if_neg hr]
        exact h
    · rw [if_neg hg]
      exact h
  | for_write i n dr dw =>
    simp only [step]
    by_cases hlt : (st.conns i).wfd < FD_SETSIZE
    swap
    · rw [if_neg hlt]
      exact h
    rw [if_pos hlt]
    by_cases hw : FD_ISSET (st.conns i).wfd dw = true
    · rw [if_pos hw]
      have := writeBranch_ok env i hio h
      cases hres : (writeBranch env i st).2 <;> exact this
    · rw [if_neg hw]
      exact h

/-- A step keeps the invariant of the flags, the monitored sets and the copied
sets. -/
theorem step_inv {env : Env} {N : Nat} {rfd wfd : Nat → Nat} {c : Cfg}
    (hd : Distinct N rfd wfd) (hrg : InRange N rfd wfd) (h : Inv N rfd wfd c) :
    Inv N rfd wfd (step env c) := by
  obtain ⟨st, pc⟩ := c
  obtain ⟨hst, hpc⟩ := h
  cases pc with
  | exited e => exact ⟨hst, hpc⟩
  | select =>
    have hst' : ∀ log, SInv N rfd wfd { st with log := log } := fun _ =>
      ⟨hst.n_eq, hst.rfd_eq, hst.wfd_eq, hst.fin_idle, hst.last, hst.fin_rfds, hst.idle_rfds,
        hst.flush_wfds, hst.fin_wfds, hst.wfds_sub, hst.closed_fin⟩
    simp only [step]
    by_cases h1 : (env.select st.log.length).n_ready = -1
    · rw [if_pos h1]
      exact ⟨hst' _, by simp [PInv]⟩
    · by_cases h0 : (env.select st.log.length).n_ready = 0
      · rw [if_neg h1, if_pos h0]
        exact ⟨hst' _, by simp [PInv]⟩
      · rw [if_neg h1, if_neg h0]
        refine ⟨hst' _, ?_, ?_⟩
        · intro j _ hj hf hmem
          exact hst.fin_rfds j hj hf (List.mem_filter.1 hmem).1
        · intro hmem
          obtain ⟨i, hi1, hiN, hi⟩ := hst.wfds_sub _ (List.mem_filter.1 hmem).1
          have := hd.wfd_inj 0 i (by omega) hiN hi
          omega
  | for_read i n dr dw =>
    obtain ⟨hdr, hdw⟩ := hpc
    have hN := hst.n_eq
    simp only [step]
    by_cases hg : i < st.n_children ∧ n > 0
    · rw [if_pos hg]
      have hi : i < N := by rw [← hN]; exact hg.1
      have hlt : (st.conns i).rfd < FD_SETSIZE := by
        rw [hst.rfd_eq]
        exact hrg.rfd_lt i hi
      rw [if_pos hlt]
      by_cases hr : FD_ISSET (st.conns i).rfd dr = true
      · rw [if_pos hr]
        have hst' := readBranch_sinv env hd hrg hst hi
        have hib := readBranch_in_bounds env hg.1 (by
          intro h1
          rw [hst.wfd_eq]
          exact hrg.wfd_lt _ (by rw [← hN]; exact h1))
        have hfr := readBranch_frame env hg.1
        cases hres : (readBranch env i st).2 with
        | none =>
          refine ⟨hst', hi, ?_, hdw⟩
          intro j hij hj hf
          rw [hfr j (by omega)] at hf
          exact hdr j (by omega) hj hf
        | some e =>
          rw [hres] at hib
          exact ⟨hst', fun he => hib (by rw [he])⟩
      · rw [if_neg hr]
        exact ⟨hst, hi, fun j hij hj hf => hdr j (by omega) hj hf, hdw⟩
    · rw [if_neg hg]
      exact ⟨hst, trivial⟩
  | for_write i n dr dw =>
    obtain ⟨hi, hdr, hdw⟩ := hpc
    simp only [step]
    have hlt : (st.conns i).wfd < FD_SETSIZE := by
      rw [hst.wfd_eq]
      exact hrg.wfd_lt i hi
    rw [if_pos hlt]
    by_cases hw : FD_ISSET (st.conns i).wfd dw = true
    · rw [if_pos hw]
      have hi0 : i ≠ 0 := by
        intro h0
        rw [FD_ISSET_iff, hst.wfd_eq, h0] at hw
        exact hdw hw.2
      obtain ⟨k, rfl⟩ : ∃ k, i = k + 1 := ⟨i - 1, by omega⟩
      have hst' := writeBranch_sinv env hd hrg hst hi
      have hib := writeBranch_in_bounds env (hst.fin_idle k) (by
        rw [hst.rfd_eq]
        exact hrg.rfd_lt k (by omega))
      have hfr := writeBranch_fin env (hst.fin_idle k)
      cases hres : (writeBranch env (k + 1) st).2 with
      | none =>
        refine ⟨hst', ?_, hdw⟩
        intro j hij hj hf
        rw [hfr j] at hf
        exact hdr j (by omega) hj hf
      | some e =>
        rw [hres] at hib
        exact ⟨hst', fun he => hib (by rw [he])⟩
    · rw [if_neg hw]
      exact ⟨hst, fun j hij hj hf => hdr j (by omega) hj hf, hdw⟩

/-- A step that does not abort keeps every byte read accounted for. -/
theorem step_data {env : Env} {N : Nat} {rfd wfd : Nat → Nat} {c : Cfg}
    (hio : TransferBounds env) (h : Inv N rfd wfd c) (hok : ∀ j, ConnOK (c.st.conns j))
    (hdata : c.pc.aborted = false → DInv c.st) :
    (step env c).pc.aborted = false → DInv (step env c).st := by
  obtain ⟨st, pc⟩ := c
  obtain ⟨hst, hpc⟩ := h
  cases pc with
  | exited e => exact hdata
  | select =>
    simp only [step]
    split
    · intro h
      simp [PC.aborted] at h
    · split
      · intro h
        simp [PC.aborted] at h
      · exact fun _ => hdata rfl
  | for_read i n dr dw =>
    obtain ⟨hdr, hdw⟩ := hpc
    have hN := hst.n_eq
    simp only [step]
    by_cases hg : i < st.n_children ∧ n > 0
    · rw [if_pos hg]
      have hi : i < N := by rw [← hN]; exact hg.1
      by_cases hlt : (st.conns i).rfd < FD_SETSIZE
      swap
      · rw [if_neg hlt]
        intro h
        simp [PC.aborted] at h
      rw [if_pos hlt]
      by_cases hr : FD_ISSET (st.conns i).rfd dr = true
      · rw [if_pos hr]
        have hfin : (st.conns i).needs_flush = false →
            (st.conns i).finished_reading = false := by
          intro _
          cases hf : (st.conns i).finished_reading
          · rfl
          · rw [FD_ISSET_iff, hst.rfd_eq] at hr
            exact absurd hr.2 (hdr i (le_refl i) hi hf)
        have hdata' := readBranch_dinv env hg.1 (hok i) (hdata rfl) hfin
        cases hres : (readBranch env i st).2 with
        | none => exact fun _ => hdata' (Or.inl hres)
        | some e =>
          intro hab
          apply hdata'
          right
          rw [hres]
          cases e <;> simp [PC.aborted] at hab ⊢
      · rw [if_neg hr]
        exact hdata
    · rw [if_neg hg]
      exact hdata
  | for_write i n dr dw =>
    obtain ⟨hi, hdr, hdw⟩ := hpc
    simp only [step]
    by_cases hlt : (st.conns i).wfd < FD_SETSIZE
    swap
    · rw [if_neg hlt]
      intro h
      simp [PC.aborted] at h
    rw [if_pos hlt]
    by_cases hw : FD_ISSET (st.conns i).wfd dw = true
    · rw [if_pos hw]
      have hi0 : i ≠ 0 := by
        intro h0
        rw [FD_ISSET_iff, hst.wfd_eq, h0] at hw
        exact hdw hw.2
      obtain ⟨k, rfl⟩ : ∃ k, i = k + 1 := ⟨i - 1, by omega⟩
      have hdata' := writeBranch_dinv env hio (hok k) (hdata rfl)
      cases hres : (writeBranch env (k + 1) st).2 <;> exact fun _ => hdata'
    · rw [if_neg hw]
      exact hdata

/-- A step keeps the trace ending at the first result that ends the loop. -/
theorem step_log {env : Env} {N : Nat} {rfd wfd : Nat → Nat} {c : Cfg}
    (hp : Posix env) (hrg : InRange N rfd wfd) (h : Inv N rfd wfd c)
    (hlog : LogOK N c.st.log c.pc.exit?) :
    LogOK N (step env c).st.log (step env c).pc.exit? := by
  obtain ⟨st, pc⟩ := c
  obtain ⟨hst, hpc⟩ := h
  have hN := hst.n_eq
  cases pc with
  | exited e => exact hlog
  | select =>
    simp only [PC.exit?] at hlog
    have hsel := hp.select_ge st.log.length
    simp only [step]
    by_cases h1 : (env.select st.log.length).n_ready = -1
    · rw [if_pos h1]
      exact ⟨st.log, _, rfl, hlog, by simp [fatal, h1]⟩
    · by_cases h0 : (env.select st.log.length).n_ready = 0
      · rw [if_neg h1, if_pos h0]
        exact ⟨st.log, _, rfl, hlog, by simp [fatal, h0]⟩
      · rw [if_neg h1, if_neg h0]
        intro e he
        rcases List.mem_append.1 he with h | h
        · exact hlog e h
        · simp at h
          subst h
          simp [fatal, h0]
          omega
  | for_read i n dr dw =>
    simp only [PC.exit?] at hlog
    simp only [step]
    by_cases hg : i < st.n_children ∧ n > 0
    · rw [if_pos hg]
      have hlt : (st.conns i).rfd < FD_SETSIZE := by
        rw [hst.rfd_eq]
        exact hrg.rfd_lt i (by rw [← hN]; exact hg.1)
      rw [if_pos hlt]
      by_cases hr : FD_ISSET (st.conns i).rfd dr = true
      · rw [if_pos hr]
        have hlog' := readBranch_log env hp hg.1 (by
          intro h1
          rw [hst.wfd_eq]
          exact hrg.wfd_lt _ (by rw [← hN]; exact h1)) (by rw [hN]; exact hlog)
        rw [hN] at hlog'
        cases hres : (readBranch env i st).2 with
        | none =>
          rw [hres] at hlog'
          exact hlog'
        | some e =>
          rw [hres] at hlog'
          exact hlog'
      · rw [if_neg hr]
        exact hlog
    · rw [if_neg hg]
      exact hlog
  | for_write i n dr dw =>
    simp only [PC.exit?] at hlog
    obtain ⟨hi, hdr, hdw⟩ := hpc
    simp only [step]
    have hlt : (st.conns i).wfd < FD_SETSIZE := by
      rw [hst.wfd_eq]
      exact hrg.wfd_lt i hi
    rw [if_pos hlt]
    by_cases hw : FD_ISSET (st.conns i).wfd dw = true
    · rw [if_pos hw]
      have hi0 : i ≠ 0 := by
        intro h0
        rw [FD_ISSET_iff, hst.wfd_eq, h0] at hw
        exact hdw hw.2
      obtain ⟨k, rfl⟩ : ∃ k, i = k + 1 := ⟨i - 1, by omega⟩
      have hlog' := writeBranch_log env hp (hst.fin_idle k) (by
        rw [hst.rfd_eq]
        exact hrg.rfd_lt k (by omega)) (by rw [hN]; exact hlog)
      rw [hN] at hlog'
      cases hres : (writeBranch env (k + 1) st).2 with
      | none =>
        rw [hres] at hlog'
        exact hlog'
      | some e =>
        rw [hres] at hlog'
        exact hlog'
    · rw [if_neg hw]
      exact hlog

/-- Membership in the two sets built by the loop of lines 224-235. -/
theorem mem_init_fds (conns : Nat → conn) (l : List Nat) (acc : fd_set × fd_set) (x : Nat) :
    (x ∈ (l.foldl
        (fun acc i => (FD_SET (conns i).rfd acc.1, FD_SET (conns i).wfd acc.2)) acc).1 ↔
      x ∈ acc.1 ∨ ∃ i, i ∈ l ∧ (conns i).rfd < FD_SETSIZE ∧ x = (conns i).rfd) ∧
    (x ∈ (l.foldl
        (fun acc i => (FD_SET (conns i).rfd acc.1, FD_SET (conns i).wfd acc.2)) acc).2 ↔
      x ∈ acc.2 ∨ ∃ i, i ∈ l ∧ (conns i).wfd < FD_SETSIZE ∧ x = (conns i).wfd) := by
  induction l generalizing acc with
  | nil => simp
  | cons a l ih =>
    simp only [List.foldl_cons]
    refine ⟨?_, ?_⟩
    · rw [(ih _).1]
      simp only [mem_FD_SET, List.mem_cons, exists_eq_or_imp]
      tauto
    · rw [(ih _).2]
      simp only [mem_FD_SET, List.mem_cons, exists_eq_or_imp]
      tauto

/-- The counters are in range when the loop is entered. -/
theorem init_ok (N : Nat) (rfd wfd : Nat → Nat) :
    ∀ j, ConnOK ((start N rfd wfd).st.conns j) := fun _ =>
  ⟨fun _ => rfl, fun _ => rfl, fun h => Bool.noConfusion h, le_refl _, le_refl _,
    Int.ofNat_nonneg _, List.length_replicate _ _⟩

/-- With every handle below `FD_SETSIZE` the setup stores inside the sets. -/
theorem init_in_range_of {N : Nat} {rfd wfd : Nat → Nat} (hN : 1 ≤ N)
    (hrg : InRange N rfd wfd) : init_in_range N (init_conn N rfd wfd) = true := by
  unfold init_in_range
  simp only [Bool.and_eq_true, decide_eq_true_eq, List.all_eq_true, List.mem_map,
    List.mem_range]
  refine ⟨hrg.rfd_lt 0 (by omega), ?_⟩
  rintro i ⟨k, hk, rfl⟩
  exact ⟨hrg.rfd_lt _ (by omega), hrg.wfd_lt _ (by omega)⟩

/-- With every handle below `FD_SETSIZE` the loop is entered at its readiness
wait. -/
theorem start_pc {N : Nat} {rfd wfd : Nat → Nat} (hN : 1 ≤ N)
    (hrg : InRange N rfd wfd) : (start N rfd wfd).pc = PC.select := by
  unfold start
  simp only [init_in_range_of hN hrg, if_true]

/-- The invariant holds when the loop is entered. -/
theorem init_inv {N : Nat} {rfd wfd : Nat → Nat} (hN : 1 ≤ N) (hrg : InRange N rfd wfd) :
    Inv N rfd wfd (start N rfd wfd) := by
  refine ⟨⟨rfl, fun _ => rfl, fun _ => rfl, fun _ _ => rfl, fun _ _ => ⟨rfl, rfl⟩,
    ?_, ?_, ?_, ?_, ?_, ?_⟩, by simp [PInv, start_pc hN hrg]⟩
  · intro i _ h
    exact Bool.noConfusion h
  · intro i hi _ _
    show rfd i ∈ (init_fds N (init_conn N rfd wfd)).1
    unfold init_fds
    rw [(mem_init_fds _ _ _ _).1]
    by_cases h0 : i = 0
    · left
      subst h0
      have := hrg.rfd_lt 0 hi
      simp [FD_ZERO, init_conn, this]
    · right
      exact ⟨i, List.mem_map.2 ⟨i - 1, List.mem_range.2 (by omega), by omega⟩,
        hrg.rfd_lt i hi, rfl⟩
  · intro i _ h
    exact Bool.noConfusion h
  · intro i _ h
    exact Bool.noConfusion h
  · intro x hx
    change x ∈ (init_fds N (init_conn N rfd wfd)).2 at hx
    unfold init_fds at hx
    rw [(mem_init_fds _ _ _ _).2] at hx
    rcases hx with h | ⟨i, hi, _, rfl⟩
    · simp [FD_ZERO] at h
    · obtain ⟨k, hk, rfl⟩ := List.mem_map.1 hi
      rw [List.mem_range] at hk
      exact ⟨k + 1, by omega, by omega, rfl⟩
  · intro i _ h
    simp [start, init] at h

/-- Nothing is read or delivered when the loop is entered. -/
theorem init_data (N : Nat) (rfd wfd : Nat → Nat) : DInv (start N rfd wfd).st := by
  intro j
  simp [start, init, init_conn, pending]

/-- The counters are in range in every configuration reached from the start
of the loop. -/
theorem reach_ok {env : Env} (hio : TransferBounds env) (N : Nat) (rfd wfd : Nat → Nat) (n : Nat) :
    ∀ j, ConnOK ((run env n (start N rfd wfd)).st.conns j) := by
  suffices h : ∀ c : Cfg, (∀ j, ConnOK (c.st.conns j)) →
      ∀ j, ConnOK ((run env n c).st.conns j) from h _ (init_ok N rfd wfd)
  induction n with
  | zero => exact fun c h => h
  | succ n ih => exact fun c h => ih (step env c) (step_ok hio h)

/-- The invariant of the flags and sets holds in every configuration reached
from the start of the loop. -/
theorem reach_inv {env : Env} {N : Nat} {rfd wfd : Nat → Nat} (hN : 1 ≤ N)
    (hd : Distinct N rfd wfd) (hrg : InRange N rfd wfd) (n : Nat) :
    Inv N rfd wfd (run env n (start N rfd wfd)) := by
  suffices h : ∀ c : Cfg, Inv N rfd wfd c → Inv N rfd wfd (run env n c) from
    h _ (init_inv hN hrg)
  induction n with
  | zero => exact fun c h => h
  | succ n ih => exact fun c h => ih (step env c) (step_inv hd hrg h)

/-- Every byte read is delivered or still in the unflushed slice, in every
configuration reached from the start of the loop that has not aborted. -/
theorem reach_data {env : Env} {N : Nat} {rfd wfd : Nat → Nat} (hN : 1 ≤ N)
    (hd : Distinct N rfd wfd) (hrg : InRange N rfd wfd) (hio : TransferBounds env) (n : Nat) :
    (run env n (start N rfd wfd)).pc.aborted = false →
      DInv (run env n (start N rfd wfd)).st := by
  suffices h : ∀ c : Cfg, Inv N rfd wfd c → (∀ j, ConnOK (c.st.conns j)) →
      (c.pc.aborted = false → DInv c.st) →
      ((run env n c).pc.aborted = false → DInv (run env n c).st) from
    h _ (init_inv hN hrg) (init_ok N rfd wfd) (fun _ => init_data N rfd wfd)
  induction n with
  | zero => exact fun c _ _ h => h
  | succ n ih =>
    exact fun c h1 h2 h3 => ih (step env c) (step_inv hd hrg h1) (step_ok hio h2)
      (step_data hio h1 h2 h3)

/-- The trace ends at the first result that ends the loop, in every
configuration reached from the start of the loop. -/
theorem reach_log {env : Env} {N : Nat} {rfd wfd : Nat → Nat} (hN : 1 ≤ N)
    (hd : Distinct N rfd wfd) (hrg : InRange N rfd wfd) (hp : Posix env) (n : Nat) :
    LogOK N (run env n (start N rfd wfd)).st.log (run env n (start N rfd wfd)).pc.exit? := by
  suffices h : ∀ c : Cfg, Inv N rfd wfd c → LogOK N c.st.log c.pc.exit? →
      LogOK N (run env n c).st.log (run env n c).pc.exit? from
    h _ (init_inv hN hrg) (by
      rw [start_pc hN hrg]
      intro e he
      simp [start, init] at he)
  induction n with
  | zero => exact fun c _ h => h
  | succ n ih =>
    exact fun c h1 h2 => ih (step env c) (step_inv hd hrg h1) (step_log hp hrg h1 h2)

/-- The exit of a configuration, as an equation on its position. -/
theorem exit?_eq_some {pc : PC} {x : Exit} : pc.exit? = some x ↔ pc = PC.exited x := by
  cases pc <;> simp [PC.exit?]

/-- The only result that ends the loop with `EXIT_SUCCESS` is a `read` of `0`
bytes on the final boundary. -/
theorem fatal_success {N : Nat} (hN : 1 ≤ N) (e : Event) :
    fatal N e = some Exit.EXIT_SUCCESS ↔ e = Event.read (N - 1) 0 := by
  cases e with
  | select n => simp only [fatal]; split <;> simp
  | read i n =>
    simp only [fatal]
    split
    · simp
      omega
    · split
      · simp
        omega
      · simp
        omega
  | close fd rc => simp only [fatal]; split <;> simp
  | write i c n => simp only [fatal]; split <;> simp
  | write_stdout c n =>
    simp only [fatal]
    split
    · simp
    · split <;> simp
  | sigpipe c => simp [fatal]

/-- One more step, taken last. -/
theorem run_succ (env : Env) (n : Nat) : ∀ c, run env (n + 1) c = step env (run env n c) := by
  induction n with
  | zero => exact fun _ => rfl
  | succ n ih => exact fun c => ih (step env c)

/-- Steps compose. -/
theorem run_add (env : Env) (n m : Nat) : ∀ c, run env (n + m) c = run env m (run env n c) := by
  induction n with
  | zero => intro c; rw [Nat.zero_add]; rfl
  | succ n ih =>
    intro c
    rw [Nat.add_right_comm]
    exact ih (step env c)

/-- The handles `rfdA`, `wfdA` are pairwise distinct. -/
theorem distinctA (N : Nat) : Distinct N rfdA wfdA :=
  ⟨fun i j _ _ h => by simp only [rfdA] at h; omega,
    fun i j _ _ h => by simp only [wfdA] at h; omega,
    fun i j _ _ h => by simp only [rfdA, wfdA] at h; omega⟩

/-- Up to 255 stages the handles `rfdA`, `wfdA` are below `FD_SETSIZE`. -/
theorem inRangeA {N : Nat} (hN : N ≤ 255) : InRange N rfdA wfdA :=
  ⟨fun i hi => by simp only [rfdA, FD_SETSIZE]; omega,
    fun i hi => by simp only [wfdA, FD_SETSIZE]; omega⟩

/-- A configuration out of the loop does not change. -/
theorem run_exited (env : Env) (m : Nat) :
    ∀ c : Cfg, ∀ x, c.pc = PC.exited x → run env m c = c := by
  induction m with
  | zero => exact fun _ _ _ => rfl
  | succ m ih =>
    intro c x hx
    have hs : step env c = c := by
      obtain ⟨st, pc⟩ := c
      simp only at hx
      subst hx
      rfl
    show run env m (step env c) = c
    rw [hs]
    exact ih c x hx

/-- The setup stores inside the sets only when each handle it stores is below
`FD_SETSIZE`. -/
theorem init_in_range_iff (N : Nat) (rfd wfd : Nat → Nat) :
    init_in_range N (init_conn N rfd wfd) = true ↔
      rfd 0 < FD_SETSIZE ∧ ∀ i, 1 ≤ i → i < N → rfd i < FD_SETSIZE ∧ wfd i < FD_SETSIZE := by
  unfold init_in_range
  simp only [Bool.and_eq_true, decide_eq_true_eq, List.all_eq_true, List.mem_map,
    List.mem_range, init_conn]
  constructor
  · rintro ⟨h0, h⟩
    refine ⟨h0, fun i h1 hi => ?_⟩
    exact h i ⟨i - 1, by omega, by omega⟩
  · rintro ⟨h0, h⟩
    refine ⟨h0, ?_⟩
    rintro i ⟨k, hk, rfl⟩
    exact h (k + 1) (by omega) (by omega)

/-- With 256 stages and the handles `rfdA`, `wfdA` the setup stores
`conns[255].rfd = 1026` outside `rfds`. -/
theorem start_overrun : (start 256 rfdA wfdA).pc = PC.exited Exit.out_of_bounds := by
  have h : init_in_range 256 (init_conn 256 rfdA wfdA) = false := by
    rw [Bool.eq_false_iff]
    intro h
    have := ((init_in_range_iff 256 rfdA wfdA).1 h).2 255 (by decide) (by decide)
    simp [rfdA, FD_SETSIZE] at this
  unfold start
  simp only [h, Bool.false_eq_true, if_false]

/-- With 256 stages and the handles `rfdA`, `wfdA` no step is taken. -/
theorem reached_overrun (env : Env) (n : Nat) :
    reached env 256 rfdA wfdA n = start 256 rfdA wfdA :=
  run_exited env n _ _ start_overrun

/-- The sets built by the setup hold only handles below `FD_SETSIZE`. -/
theorem init_fds_lt (N : Nat) (rfd wfd : Nat → Nat) (x : Nat) :
    (x ∈ (start N rfd wfd).st.rfds → x < FD_SETSIZE) ∧
      (x ∈ (start N rfd wfd).st.wfds → x < FD_SETSIZE) := by
  constructor
  · intro hx
    change x ∈ (init_fds N (init_conn N rfd wfd)).1 at hx
    unfold init_fds at hx
    rw [(mem_init_fds _ _ _ _).1] at hx
    rcases hx with h | ⟨i, _, hlt, rfl⟩
    · rcases mem_FD_SET.1 h with ⟨hlt, rfl⟩ | h
      · exact hlt
      · simp [FD_ZERO] at h
    · exact hlt
  · intro hx
    change x ∈ (init_fds N (init_conn N rfd wfd)).2 at hx
    unfold init_fds at hx
    rw [(mem_init_fds _ _ _ _).2] at hx
    rcases hx with h | ⟨i, _, hlt, rfl⟩
    · simp [FD_ZERO] at h
    · exact hlt

/-- In `envRelay` every `read` and `write` returns at most the requested count. -/
theorem boundsRelay : TransferBounds envRelay := by
  refine ⟨fun t n => ?_, fun t m => ?_⟩
  · simp only [envRelay]
    split_ifs <;> simp [ReadRes.count]
  · simp only [envRelay]
    split_ifs
    · exact min_le_left _ _
    · exact le_refl _

/-- In `envRelay` the results of `select` and `close` are in range. -/
theorem posixRelay : Posix envRelay := by
  refine ⟨fun t => ?_, fun t => Or.inl rfl⟩
  simp only [envRelay]
  split_ifs <;> decide

/-- C8 fails as stated, for every `N ≥ 1`: with 256 stages and the handles
`pipe` hands out, the final boundary's `conns[255].rfd` is `1026`, beyond the
capacity `FD_SETSIZE = 1024` of the set, and it is not in the `rfds` the
setup leaves: clause (d) fails, and so does (b) for that boundary. -/
theorem monitored_endpoints_counterexample :
    1 ≤ 256 ∧ Distinct 256 rfdA wfdA ∧
      ((start 256 rfdA wfdA).st.conns (256 - 1)).rfd = 1026 ∧
      ((start 256 rfdA wfdA).st.conns (256 - 1)).needs_flush = false ∧
      ((start 256 rfdA wfdA).st.conns (256 - 1)).finished_reading = false ∧
      ((start 256 rfdA wfdA).st.conns (256 - 1)).rfd ∉ (start 256 rfdA wfdA).st.rfds ∧
      ∀ n, ((reached envRelay 256 rfdA wfdA n).st.conns (256 - 1)).rfd ∉
        (reached envRelay 256 rfdA wfdA n).st.rfds := by
  have key : ((start 256 rfdA wfdA).st.conns (256 - 1)).rfd ∉ (start 256 rfdA wfdA).st.rfds := by
    intro h
    have := (init_fds_lt 256 rfdA wfdA _).1 h
    revert this
    decide
  refine ⟨by decide, distinctA 256, rfl, rfl, rfl, key, fun n => ?_⟩
  rw [reached_overrun]
  exact key

/-- C8, amended: when every handle is below `FD_SETSIZE`, in every reached
configuration, so at every `select`: (a) a non-final boundary with
`needs_flush` set has its downstream `conns[i + 1].wfd` in `wfds`; (b) a
boundary with `needs_flush` and `finished_reading` clear has its `rfd` in
`rfds`; (c) a non-final boundary that finished reading and whose downstream
was not closed yet has `conns[i + 1].wfd` in `wfds`; (d) the final boundary's
`rfd` is in `rfds`. -/
theorem monitored_endpoints {env : Env} {N : Nat} {rfd wfd : Nat → Nat}
    (hN : 1 ≤ N) (hd : Distinct N rfd wfd) (hrg : InRange N rfd wfd) (n : Nat) :
    (∀ i, i + 1 < N → ((reached env N rfd wfd n).st.conns i).needs_flush = true →
        ((reached env N rfd wfd n).st.conns (i + 1)).wfd ∈ (reached env N rfd wfd n).st.wfds) ∧
      (∀ i, i < N → ((reached env N rfd wfd n).st.conns i).needs_flush = false →
        ((reached env N rfd wfd n).st.conns i).finished_reading = false →
        ((reached env N rfd wfd n).st.conns i).rfd ∈ (reached env N rfd wfd n).st.rfds) ∧
      (∀ i, i + 1 < N → ((reached env N rfd wfd n).st.conns i).finished_reading = true →
        ((reached env N rfd wfd n).st.conns (i + 1)).wfd ∉
          (reached env N rfd wfd n).st.closed →
        ((reached env N rfd wfd n).st.conns (i + 1)).wfd ∈ (reached env N rfd wfd n).st.wfds) ∧
      ((reached env N rfd wfd n).st.conns (N - 1)).rfd ∈ (reached env N rfd wfd n).st.rfds := by
  have hinv : Inv N rfd wfd (reached env N rfd wfd n) := reach_inv hN hd hrg n
  obtain ⟨hst, _⟩ := hinv
  refine ⟨?_, ?_, ?_, ?_⟩
  · intro i hi hnf
    rw [hst.wfd_eq]
    exact hst.flush_wfds i hi hnf
  · intro i hi hnf hf
    rw [hst.rfd_eq]
    exact hst.idle_rfds i hi hnf hf
  · intro i hi hf hc
    rw [hst.wfd_eq] at hc ⊢
    exact hst.fin_wfds i hi hf hc
  · rw [hst.rfd_eq]
    have hl := hst.last (N - 1) (by omega)
    exact hst.idle_rfds (N - 1) (by omega) hl.1 hl.2

/-- C8 amended, on the run of `envRelay`: at the second `select` boundary 0 is
flushing and `conns[1].wfd = 9` is monitored, as is the final `rfd = 10`. -/
theorem monitored_endpoints_witness :
    (1 ≤ 2 ∧ (reached envRelay 2 rfdA wfdA 6).pc = PC.select ∧
        ((reached envRelay 2 rfdA wfdA 6).st.conns 0).needs_flush = true) ∧
      ((reached envRelay 2 rfdA wfdA 6).st.conns (0 + 1)).wfd ∈
        (reached envRelay 2 rfdA wfdA 6).st.wfds ∧
      ((reached envRelay 2 rfdA wfdA 6).st.conns (2 - 1)).rfd ∈
        (reached envRelay 2 rfdA wfdA 6).st.rfds :=
  ⟨⟨by decide, by decide, by decide⟩,
    (monitored_endpoints (by decide) (distinctA 2) (inRangeA (by decide)) 6).1 0 (by decide)
      (by decide),
    (monitored_endpoints (by decide) (distinctA 2) (inRangeA (by decide)) 6).2.2.2⟩

/-- C9 fails as stated: on the run of `envRelay`, once the flush of the three
staged bytes completes, `needs_flush` is clear while
`bytes_written = 0 < bytes_read = 3`. -/
theorem needs_flush_counters_counterexample :
    (reached envRelay 2 rfdA wfdA 12).pc = PC.select ∧
      ((reached envRelay 2 rfdA wfdA 12).st.conns 0).needs_flush = false ∧
      ((reached envRelay 2 rfdA wfdA 12).st.conns 0).bytes_written = 0 ∧
      ((reached envRelay 2 rfdA wfdA 12).st.conns 0).bytes_read = 3 ∧
      ¬ (((reached envRelay 2 rfdA wfdA 12).st.conns 0).needs_flush = true ↔
        ((reached envRelay 2 rfdA wfdA 12).st.conns 0).bytes_written <
          ((reached envRelay 2 rfdA wfdA 12).st.conns 0).bytes_read) := by
  decide

/-- C9, amended: when every handle is below `FD_SETSIZE`, at every boundary of
a reached state, `needs_flush` set implies `bytes_written < bytes_read`; `needs_flush` clear implies
`bytes_written = 0` and, in a run that has not aborted, that every byte read
has been delivered downstream; and with `needs_flush` set the readable branch
issues no `read`. -/
theorem needs_flush_counters {env : Env} {N : Nat} {rfd wfd : Nat → Nat}
    (hN : 1 ≤ N) (hd : Distinct N rfd wfd) (hrg : InRange N rfd wfd)
    (hio : TransferBounds env) (n i : Nat) :
    (((reached env N rfd wfd n).st.conns i).needs_flush = true →
        ((reached env N rfd wfd n).st.conns i).bytes_written <
          ((reached env N rfd wfd n).st.conns i).bytes_read) ∧
      (((reached env N rfd wfd n).st.conns i).needs_flush = false →
        ((reached env N rfd wfd n).st.conns i).bytes_written = 0 ∧
          ((reached env N rfd wfd n).pc.aborted = false →
            ((reached env N rfd wfd n).st.conns i).flushed =
              ((reached env N rfd wfd n).st.conns i).staged)) ∧
      (((reached env N rfd wfd n).st.conns i).needs_flush = true →
        (readBranch env i (reached env N rfd wfd n).st).1.log =
            (reached env N rfd wfd n).st.log ∧
          (readBranch env i (reached env N rfd wfd n).st).1.conns =
            (reached env N rfd wfd n).st.conns) := by
  have hok : ConnOK ((reached env N rfd wfd n).st.conns i) := reach_ok hio N rfd wfd n i
  refine ⟨hok.flush_lt, ?_, ?_⟩
  · intro hnf
    refine ⟨hok.idle_zero hnf, ?_⟩
    intro hna
    have hdata := reach_data hN hd hrg hio n hna i
    unfold reached at hnf ⊢
    simpa [pending, hnf] using hdata
  · intro hnf
    simp [readBranch, hnf]

/-- C9 amended, on the run of `envRelay`: after the completed flush boundary 0
has `needs_flush` clear, `bytes_written = 0` and all three bytes delivered. -/
theorem needs_flush_counters_witness :
    (1 ≤ 2 ∧ ((reached envRelay 2 rfdA wfdA 12).st.conns 0).needs_flush = false ∧
        (reached envRelay 2 rfdA wfdA 12).pc.aborted = false) ∧
      ((reached envRelay 2 rfdA wfdA 12).st.conns 0).bytes_written = 0 ∧
      ((reached envRelay 2 rfdA wfdA 12).st.conns 0).flushed =
        ((reached envRelay 2 rfdA wfdA 12).st.conns 0).staged :=
  ⟨⟨by decide, by decide, by decide⟩,
    ((needs_flush_counters (by decide) (distinctA 2) (inRangeA (by decide)) boundsRelay 12
      0).2.1 (by decide)).1,
    ((needs_flush_counters (by decide) (distinctA 2) (inRangeA (by decide)) boundsRelay 12
      0).2.1 (by decide)).2 (by decide)⟩

/-- In `envShortSink` the results of `select` and `close` are in range. -/
theorem posixShortSink : Posix envShortSink :=
  ⟨fun _ => by simp [envShortSink], fun _ => Or.inl rfl⟩

/-- C4 fails on the code: with one stage, when the final boundary reads three
bytes and the `write` to stdout takes two of them, the loop is left by the
failing assertion of line 291, although no result is negative, `select` did
not return `0` and no `read` returned `0`; the flush of lines 306-319 accepts
the same short count from `write` and carries on.  And with two stages, when
the flush writes to a pipe whose reader is gone, the process is killed by
`SIGPIPE` before `write` returns any result. -/
theorem relay_exits_diverge :
    ((reached envShortSink 1 rfdA wfdA 2).pc = PC.exited Exit.assert_failed ∧
      (reached envShortSink 1 rfdA wfdA 2).st.log =
        [Event.select 1, Event.read 0 3, Event.write_stdout 3 2]) ∧
      ((reached envRelay 2 rfdA wfdA 5).st.log =
          [Event.select 2, Event.read 0 3, Event.write 1 3 2] ∧
        (reached envRelay 2 rfdA wfdA 5).pc.exit? = none) ∧
      ((reached envDeadWorker 2 rfdA wfdA 5).pc = PC.exited Exit.killed_by_signal ∧
        (reached envDeadWorker 2 rfdA wfdA 5).st.log =
          [Event.select 2, Event.read 0 3, Event.sigpipe 3]) := by
  decide

/-- The exits of the loop, when every handle is below `FD_SETSIZE`: in every
run the results before the last one do not end the loop; the loop is left
exactly when the last result ends it, which is: with `EXIT_SUCCESS` exactly
when a `read` on the final boundary returned `0`; with `EXIT_FAILURE` at a
negative result of `select`, `read`, `write` or `close` and at `select`
returning `0`; by the failing assertion of line 291 when the `write` to stdout
returned a count other than the bytes read; and by `SIGPIPE` when a `write`
raised it.  Once the loop is left nothing further is processed. -/
theorem exits_characterised {env : Env} {N : Nat} {rfd wfd : Nat → Nat}
    (hN : 1 ≤ N) (hd : Distinct N rfd wfd) (hrg : InRange N rfd wfd) (hp : Posix env)
    (n : Nat) :
    (∀ e ∈ (reached env N rfd wfd n).st.log.dropLast, fatal N e = none) ∧
      (∀ x, (reached env N rfd wfd n).pc = PC.exited x ↔
        ∃ e, (reached env N rfd wfd n).st.log.getLast? = some e ∧ fatal N e = some x) ∧
      ((reached env N rfd wfd n).pc = PC.exited Exit.EXIT_SUCCESS ↔
        (reached env N rfd wfd n).st.log.getLast? = some (Event.read (N - 1) 0)) ∧
      (∀ x, (reached env N rfd wfd n).pc = PC.exited x →
        ∀ m, reached env N rfd wfd (n + m) = reached env N rfd wfd n) := by
  have hlog : LogOK N (reached env N rfd wfd n).st.log (reached env N rfd wfd n).pc.exit? :=
    reach_log hN hd hrg hp n
  have key : (∀ e ∈ (reached env N rfd wfd n).st.log.dropLast, fatal N e = none) ∧
      (∀ x, (reached env N rfd wfd n).pc = PC.exited x ↔
        ∃ e, (reached env N rfd wfd n).st.log.getLast? = some e ∧ fatal N e = some x) := by
    cases hx : (reached env N rfd wfd n).pc.exit? with
    | none =>
      rw [hx] at hlog
      refine ⟨fun e he => hlog e (List.mem_of_mem_dropLast he), fun x => ⟨?_, ?_⟩⟩
      · intro h
        rw [← exit?_eq_some, hx] at h
        cases h
      · rintro ⟨e, he, hf⟩
        rw [hlog e (List.mem_of_getLast?_eq_some he)] at hf
        cases hf
    | some y =>
      rw [hx] at hlog
      obtain ⟨es, e, hl, hes, he⟩ := hlog
      rw [hl]
      refine ⟨?_, fun x => ⟨?_, ?_⟩⟩
      · rw [List.dropLast_concat]
        exact hes
      · intro h
        rw [← exit?_eq_some, hx] at h
        cases h
        exact ⟨e, by simp, he⟩
      · rintro ⟨e', he', hf⟩
        simp at he'
        subst he'
        rw [he] at hf
        cases hf
        exact exit?_eq_some.1 hx
  refine ⟨key.1, key.2, ?_, ?_⟩
  · rw [key.2]
    constructor
    · rintro ⟨e, he, hf⟩
      rw [(fatal_success hN e).1 hf] at he
      exact he
    · intro h
      exact ⟨_, h, (fatal_success hN _).2 rfl⟩
  · intro x hx m
    unfold reached at hx ⊢
    rw [run_add]
    exact run_exited env m _ x hx

/-- C5 fails as stated: with two stages and the second worker gone, boundary 0
stages three bytes and, in the same pass, the final boundary reads end of
stream; the coordinator returns `EXIT_SUCCESS` while boundary 0 still has
`needs_flush` set, has not seen its end of stream and has delivered none of
its bytes. -/
theorem no_silent_truncation_counterexample :
    (reached envEarlyEOF 2 rfdA wfdA 4).pc = PC.exited Exit.EXIT_SUCCESS ∧
      ((reached envEarlyEOF 2 rfdA wfdA 4).st.conns 0).needs_flush = true ∧
      ((reached envEarlyEOF 2 rfdA wfdA 4).st.conns 0).finished_reading = false ∧
      ((reached envEarlyEOF 2 rfdA wfdA 4).st.conns 0).staged = [1, 2, 3] ∧
      ((reached envEarlyEOF 2 rfdA wfdA 4).st.conns 0).flushed = [] := by
  decide

/-- C5, amended: when every handle is below `FD_SETSIZE`, a `read` of `0`
bytes on the final boundary makes the readable branch return `EXIT_SUCCESS`
whatever the state of the other boundaries, and from any reached configuration
that tests the final boundary's readable `rfd` the next configuration is the
exit with `EXIT_SUCCESS`; and when a run ends with `EXIT_SUCCESS`, the last
result is that `read`, every byte read at the final boundary has been written
to stdout, and every earlier boundary has delivered the bytes it read except
its unflushed slice. -/
theorem exit_success_state {env : Env} {N : Nat} {rfd wfd : Nat → Nat}
    (hN : 1 ≤ N) (hd : Distinct N rfd wfd) (hrg : InRange N rfd wfd)
    (hio : TransferBounds env) (hp : Posix env) (n : Nat) :
    (∀ s : State, s.n_children = N → (s.conns (N - 1)).needs_flush = false →
        env.read s.log.length (s.conns (N - 1)).buf_sz = ReadRes.data [] →
        (readBranch env (N - 1) s).2 = some Exit.EXIT_SUCCESS) ∧
      (∀ n_ready dirty_rfds dirty_wfds,
        (reached env N rfd wfd n).pc = PC.for_read (N - 1) n_ready dirty_rfds dirty_wfds →
        n_ready > 0 →
        FD_ISSET ((reached env N rfd wfd n).st.conns (N - 1)).rfd dirty_rfds = true →
        env.read (reached env N rfd wfd n).st.log.length
          ((reached env N rfd wfd n).st.conns (N - 1)).buf_sz = ReadRes.data [] →
        (reached env N rfd wfd (n + 1)).pc = PC.exited Exit.EXIT_SUCCESS) ∧
      ((reached env N rfd wfd n).pc = PC.exited Exit.EXIT_SUCCESS →
        (reached env N rfd wfd n).st.log.getLast? = some (Event.read (N - 1) 0) ∧
        ((reached env N rfd wfd n).st.conns (N - 1)).flushed =
          ((reached env N rfd wfd n).st.conns (N - 1)).staged ∧
        (∀ j, j + 1 < N →
          ((reached env N rfd wfd n).st.conns j).staged =
            ((reached env N rfd wfd n).st.conns j).flushed ++
              pending ((reached env N rfd wfd n).st.conns j))) := by
  have hinv : Inv N rfd wfd (reached env N rfd wfd n) := reach_inv hN hd hrg n
  have hlast : ∀ s : State, s.n_children = N → (s.conns (N - 1)).needs_flush = false →
      env.read s.log.length (s.conns (N - 1)).buf_sz = ReadRes.data [] →
      (readBranch env (N - 1) s).2 = some Exit.EXIT_SUCCESS := by
    intro s hs hnf hr
    have hl : N - 1 + 1 = s.n_children := by omega
    simp [readBranch, readEOF, hnf, hr, ReadRes.count, hl]
  refine ⟨hlast, ?_, ?_⟩
  · intro n_ready dr dw hpc hpos hdirty hread
    have hnf := (hinv.st.last (N - 1) (by omega)).1
    have hlt : ((reached env N rfd wfd n).st.conns (N - 1)).rfd < FD_SETSIZE := by
      rw [hinv.st.rfd_eq]
      exact hrg.rfd_lt _ (by omega)
    have hres := hlast _ hinv.st.n_eq hnf hread
    have hg : N - 1 < (reached env N rfd wfd n).st.n_children ∧ n_ready > 0 :=
      ⟨by rw [hinv.st.n_eq]; omega, hpos⟩
    have hstep : reached env N rfd wfd (n + 1) = step env (reached env N rfd wfd n) :=
      run_succ env n _
    rw [hstep]
    generalize reached env N rfd wfd n = c at hpc hdirty hlt hres hg
    obtain ⟨st, pc⟩ := c
    simp only at hpc hdirty hlt hres hg
    subst hpc
    simp only [step]
    rw [if_pos hg, if_pos hlt, if_pos hdirty]
    simp only [hres]
  intro hx
  have hna : (reached env N rfd wfd n).pc.aborted = false := by
    rw [hx]
    rfl
  have hdata : DInv (reached env N rfd wfd n).st := reach_data hN hd hrg hio n hna
  have hlog : LogOK N (reached env N rfd wfd n).st.log (reached env N rfd wfd n).pc.exit? :=
    reach_log hN hd hrg hp n
  refine ⟨?_, ?_, ?_⟩
  · rw [hx] at hlog
    obtain ⟨es, e, hl, _, he⟩ := hlog
    rw [hl, (fatal_success hN e).1 he]
    simp
  · have h := hdata (N - 1)
    have hl := (hinv.st.last (N - 1) (by omega)).1
    simpa [pending, hl] using h
  · intro j _
    exact (hdata j).symm

/-- In `envEarlyEOF` every `read` and `write` returns at most the requested
count. -/
theorem boundsEarlyEOF : TransferBounds envEarlyEOF :=
  ⟨fun t n => by simp only [envEarlyEOF]; split_ifs <;> simp [ReadRes.count],
    fun _ _ => le_refl _⟩

/-- In `envEarlyEOF` the results of `select` and `close` are in range. -/
theorem posixEarlyEOF : Posix envEarlyEOF :=
  ⟨fun _ => by simp [envEarlyEOF], fun _ => Or.inl rfl⟩

/-- C5 amended, on the run of `envEarlyEOF`: the fourth step tests the final
boundary, whose `read` returns `0`, and the run ends with `EXIT_SUCCESS` at
that `read`, with boundary 0 still holding its three bytes. -/
theorem exit_success_state_witness :
    (1 ≤ 2 ∧ (reached envEarlyEOF 2 rfdA wfdA 3).pc = PC.for_read (2 - 1) 2 [10, 6] [9] ∧
        (reached envEarlyEOF 2 rfdA wfdA 4).pc = PC.exited Exit.EXIT_SUCCESS) ∧
      (reached envEarlyEOF 2 rfdA wfdA (3 + 1)).pc = PC.exited Exit.EXIT_SUCCESS ∧
      (reached envEarlyEOF 2 rfdA wfdA 4).st.log.getLast? = some (Event.read (2 - 1) 0) ∧
      pending ((reached envEarlyEOF 2 rfdA wfdA 4).st.conns 0) = [1, 2, 3] ∧
      ((reached envEarlyEOF 2 rfdA wfdA 4).st.conns 0).staged =
        ((reached envEarlyEOF 2 rfdA wfdA 4).st.conns 0).flushed ++
          pending ((reached envEarlyEOF 2 rfdA wfdA 4).st.conns 0) :=
  ⟨⟨by decide, by decide, by decide⟩,
    (exit_success_state (by decide) (distinctA 2) (inRangeA (by decide)) boundsEarlyEOF
      posixEarlyEOF 3).2.1 2 [10, 6] [9] (by decide) (by decide) (by decide) rfl,
    ((exit_success_state (by decide) (distinctA 2) (inRangeA (by decide)) boundsEarlyEOF
      posixEarlyEOF 4).2.2 (by decide)).1,
    by decide,
    ((exit_success_state (by decide) (distinctA 2) (inRangeA (by decide)) boundsEarlyEOF
      posixEarlyEOF 4).2.2 (by decide)).2.2 0 (by decide)⟩

/-- C6: the capacity `conns[i].buf_sz` assigned to boundary `i` of `N` stages
is `min (3 ^ (N - i + 4)) 131071`, where `131071 = 128 * 1024 - 1 =
MAX_BUF_SZ - 1`; it does not increase with `i`, never exceeds `131071` and is
at least `243`; two stages get `729` and `243`. -/
theorem buffer_sizing (N i : Nat) (rfd wfd : Nat → Nat) (hN : 1 ≤ N) (hi : i < N) :
    ((start N rfd wfd).st.conns i).buf_sz = buf_capacity N i ∧
      buf_capacity N i = min (3 ^ (N - i + 4)) 131071 ∧
      131071 = 128 * 1024 - 1 ∧ 131071 = MAX_BUF_SZ - 1 ∧
      (∀ j, i < j → j < N → buf_capacity N j ≤ buf_capacity N i) ∧
      buf_capacity N i ≤ 131071 ∧
      243 ≤ buf_capacity N i ∧
      buf_capacity 2 0 = 729 ∧ buf_capacity 2 1 = 243 := by
  have _ := hN
  refine ⟨rfl, rfl, by norm_num, by norm_num [MAX_BUF_SZ], ?_, ?_, ?_, by decide, by decide⟩
  · intro j hij hj
    unfold buf_capacity
    exact min_le_min_right _ (Nat.pow_le_pow_right (by norm_num) (by omega))
  · unfold buf_capacity
    exact le_trans (min_le_right _ _) (by norm_num [MAX_BUF_SZ])
  · unfold buf_capacity
    refine le_min ?_ (by norm_num [MAX_BUF_SZ])
    calc 243 = 3 ^ 5 := by norm_num
      _ ≤ 3 ^ (N - i + 4) := Nat.pow_le_pow_right (by norm_num) (by omega)

/-- C6, for three stages: the capacities are `2187`, `729` and `243`. -/
theorem buffer_sizing_witness :
    (1 ≤ 3 ∧ 0 < 3) ∧ buf_capacity 3 0 = 2187 ∧ buf_capacity 3 1 = 729 ∧
      buf_capacity 3 2 = 243 ∧ buf_capacity 3 1 ≤ buf_capacity 3 0 ∧
      243 ≤ buf_capacity 3 0 :=
  ⟨⟨by decide, by decide⟩, by decide, by decide, by decide,
    (buffer_sizing 3 0 rfdA wfdA (by decide) (by decide)).2.2.2.2.1 1 (by decide) (by decide),
    (buffer_sizing 3 0 rfdA wfdA (by decide) (by decide)).2.2.2.2.2.2.1⟩

/-- The argument count is checked: with other than two arguments after the
program name `main` returns at the usage message. -/
theorem main_startup_argc (argv : List String) (h : (argv.drop 1).length ≠ 2) :
    main_startup argv = Startup.usage_error := by
  unfold main_startup
  split
  · next n f heq =>
    rw [heq] at h
    simp at h
  · rfl

/-- C7 fails on the code: with `abc` (or `2x`) for `<N>`, `strtol` leaves
`errno` at `0`, the only check of lines 47-50 passes, and `main` goes on to
open the input file with a stage count of `0` (or `2`). -/
theorem usage_not_rejected :
    main_startup ["n-pipes", "abc", "input.txt"] = Startup.open_file 0 ("input.txt") ∧
      main_startup ["n-pipes", "2x", "input.txt"] = Startup.open_file 2 ("input.txt") := by
  decide

end NPipes
